import Mathlib

/-!
Verification of the region/pipeline core of the ITK-derived repository.

The repository ships the mutable region iterator header
(itkImageRegionIterator.h) and two test drivers
(itkJoinSeriesImageFilterStreamingTest.cxx, itkVnlFFTWF_FFTTest.cxx).
The walking logic (ImageRegionConstIterator), the region splitter, the
data-object bookkeeping and the pipeline executor are not part of the
source tree; those parts are modelled from the specification, as marked
on each definition.

Representation conventions used throughout this development:
an Extent (N-dimensional axis-aligned box) is a list of per-axis
(start, size) pairs listed SLOWEST axis first, so that row-major order
(fastest axis varies quickest) coincides with lexicographic order on
index lists, which are lists of integer coordinates in the same
slowest-first axis order.
-/

namespace ITK

/-- An Extent: per-axis (start, size), slowest axis first. -/
abbrev Extent := List (Int × Nat)

/-- An index position: one integer coordinate per axis, slowest first. -/
abbrev Index := List Int

/-- Membership of an index position in an extent: componentwise
start ≤ x < start + size, with matching dimensionality. -/
def inAxes : Extent → Index → Bool
  | [], [] => true
  | (s, n) :: rest, x :: xs => (s ≤ x && x < s + (n : Int)) && inAxes rest xs
  | _, _ => false

/-- Containment test between extents: A ⊇ B componentwise.
Modelled from the spec: Extent supports containment queries
(every axis interval of B lies within the corresponding interval of A). -/
def contains : Extent → Extent → Bool
  | [], [] => true
  | (sa, na) :: as_, (sb, nb) :: bs =>
      (sa ≤ sb && sb + (nb : Int) ≤ sa + (na : Int)) && contains as_ bs
  | _, _ => false

/-- Total number of index positions inside an extent. -/
def elemCount (E : Extent) : Nat := (E.map (·.2)).prod

/-- The start corner of an extent. -/
def beginIdx (E : Extent) : Index := E.map (·.1)

/-- The last index position of an extent (meaningful when all sizes ≥ 1). -/
def lastIdx (E : Extent) : Index := E.map (fun p => p.1 + (p.2 : Int) - 1)

/-- All integer coordinates of the interval [s, s+n), in increasing order. -/
def idxRange (s : Int) (n : Nat) : List Int :=
  (List.range n).map (fun (i : Nat) => s + (i : Int))

/-- All index positions of an extent in row-major order: the head axis is
the slowest, so the enumeration is lexicographic on index lists. -/
def indicesOf : Extent → List Index
  | [] => [[]]
  | (s, n) :: rest =>
      (idxRange s n).flatMap (fun x => (indicesOf rest).map (fun xs => x :: xs))

/-- Row-major (lexicographic, slowest axis first) strict order on indices. -/
def idxLt : Index → Index → Prop
  | x :: xs, y :: ys => x < y ∨ (x = y ∧ idxLt xs ys)
  | _, _ => False

lemma idxRange_length (s : Int) (n : Nat) : (idxRange s n).length = n := by
  simp [idxRange]

lemma mem_idxRange {s x : Int} {n : Nat} :
    x ∈ idxRange s n ↔ s ≤ x ∧ x < s + (n : Int) := by
  simp only [idxRange, List.mem_map, List.mem_range]
  constructor
  · rintro ⟨i, hi, rfl⟩
    omega
  · rintro ⟨h1, h2⟩
    refine ⟨(x - s).toNat, by omega, by omega⟩

lemma idxRange_nodup (s : Int) (n : Nat) : (idxRange s n).Nodup := by
  refine List.Nodup.map ?_ (List.nodup_range n)
  intro a b h
  simpa using h

lemma elemCount_cons (s : Int) (n : Nat) (rest : Extent) :
    elemCount ((s, n) :: rest) = n * elemCount rest := by
  simp [elemCount]

lemma indicesOf_length (E : Extent) : (indicesOf E).length = elemCount E := by
  induction E with
  | nil => simp [indicesOf, elemCount]
  | cons p rest ih =>
    obtain ⟨s, n⟩ := p
    rw [indicesOf, List.length_flatMap, elemCount_cons]
    simp only [Function.comp_def]
    have h : ∀ x ∈ idxRange s n,
        ((indicesOf rest).map (fun xs => x :: xs)).length = elemCount rest := by
      intro x _
      rw [List.length_map, ih]
    rw [List.map_congr_left h, List.map_const', idxRange_length,
      List.sum_replicate, smul_eq_mul]

lemma mem_indicesOf {E : Extent} {a : Index} :
    a ∈ indicesOf E ↔ inAxes E a = true := by
  induction E generalizing a with
  | nil =>
    cases a with
    | nil => simp [indicesOf, inAxes]
    | cons x xs => simp [indicesOf, inAxes]
  | cons p rest ih =>
    obtain ⟨s, n⟩ := p
    cases a with
    | nil =>
      simp [indicesOf, inAxes]
    | cons x xs =>
      simp only [indicesOf, List.mem_flatMap, List.mem_map, inAxes]
      constructor
      · rintro ⟨y, hy, xs', hxs', heq⟩
        obtain ⟨rfl, rfl⟩ : y = x ∧ xs' = xs := by
          refine ⟨(List.cons.injEq ..).mp heq |>.1, (List.cons.injEq ..).mp heq |>.2⟩
        rw [mem_idxRange] at hy
        simp [hy.1, hy.2, ih.mp hxs']
      · intro h
        simp only [Bool.and_eq_true, decide_eq_true_eq] at h
        exact ⟨x, mem_idxRange.mpr ⟨h.1.1, h.1.2⟩, xs, ih.mpr h.2, rfl⟩

lemma indicesOf_nodup (E : Extent) : (indicesOf E).Nodup := by
  induction E with
  | nil => simp [indicesOf]
  | cons p rest ih =>
    obtain ⟨s, n⟩ := p
    rw [indicesOf, List.nodup_flatMap]
    refine ⟨fun x _ => ih.map (fun a b h => (List.cons.injEq ..).mp h |>.2), ?_⟩
    refine List.Pairwise.imp ?_ (idxRange_nodup s n)
    intro a b hne z hza hzb
    simp only [Function.onFun, List.mem_map] at hza hzb
    obtain ⟨xs, _, rfl⟩ := hza
    obtain ⟨ys, _, heq⟩ := hzb
    exact hne ((List.cons.injEq ..).mp heq |>.1).symm

/-- One advance step of the region walk. Modelled from the spec: advance
increments the fastest axis; on reaching the end of that axis span it
resets the axis to its start and increments the next axis, cascading as
needed; the result is none when the slowest axis also overflows, i.e. the
walk has moved one past the last element. The fastest axis is the tail of
the slowest-first axis list, so the cascade is expressed by first trying
to advance the faster axes and, failing that, stepping this axis. -/
def advanceIdx : Extent → Index → Option Index
  | [], [] => none
  | (s, n) :: rest, x :: xs =>
    (match advanceIdx rest xs with
     | some xs' => some (x :: xs')
     | none => if x + 1 < s + (n : Int) then some ((x + 1) :: beginIdx rest) else none)
  | _, _ => none

lemma advanceIdx_lt {E : Extent} {a b : Index} (h : advanceIdx E a = some b) :
    idxLt a b := by
  induction E generalizing a b with
  | nil =>
    cases a with
    | nil => simp [advanceIdx] at h
    | cons x xs => simp [advanceIdx] at h
  | cons p rest ih =>
    obtain ⟨s, n⟩ := p
    cases a with
    | nil => simp [advanceIdx] at h
    | cons x xs =>
      rw [advanceIdx] at h
      cases hr : advanceIdx rest xs with
      | some xs' =>
        rw [hr] at h
        obtain rfl : b = x :: xs' := by simpa using h.symm
        exact Or.inr ⟨rfl, ih hr⟩
      | none =>
        rw [hr] at h
        by_cases hx : x + 1 < s + (n : Int)
        · rw [if_pos hx] at h
          obtain rfl : b = (x + 1) :: beginIdx rest := by simpa using h.symm
          exact Or.inl (by omega)
        · rw [if_neg hx] at h
          exact absurd h (by simp)

lemma idxLt_trans : ∀ a b c : Index, idxLt a b → idxLt b c → idxLt a c := by
  intro a
  induction a with
  | nil =>
    intro b c hab
    cases b <;> simp [idxLt] at hab
  | cons x xs ih =>
    intro b c hab hbc
    cases b with
    | nil => simp [idxLt] at hab
    | cons y ys =>
      cases c with
      | nil => simp [idxLt] at hbc
      | cons z zs =>
        rcases hab with h1 | ⟨rfl, h1⟩
        · rcases hbc with h2 | ⟨rfl, h2⟩
          · exact Or.inl (h1.trans h2)
          · exact Or.inl h1
        · rcases hbc with h2 | ⟨rfl, h2⟩
          · exact Or.inl h2
          · exact Or.inr ⟨rfl, ih ys zs h1 h2⟩

instance : IsTrans Index idxLt := ⟨idxLt_trans⟩

lemma elemCount_pos_head {s : Int} {n : Nat} {rest : Extent}
    (h : 0 < elemCount ((s, n) :: rest)) : 0 < n ∧ 0 < elemCount rest := by
  rw [elemCount_cons] at h
  constructor
  · rcases Nat.eq_zero_or_pos n with rfl | hn
    · simp at h
    · exact hn
  · rcases Nat.eq_zero_or_pos (elemCount rest) with he | he
    · rw [he, Nat.mul_zero] at h
      simp at h
    · exact he

lemma indicesOf_eq_nil {E : Extent} (h : elemCount E = 0) : indicesOf E = [] := by
  have := indicesOf_length E
  rw [h] at this
  exact List.length_eq_zero.mp this

lemma indicesOf_ne_nil {E : Extent} (h : 0 < elemCount E) : indicesOf E ≠ [] := by
  have := indicesOf_length E
  intro hc
  rw [hc] at this
  simp at this
  omega

lemma idxRange_cons {s : Int} {n : Nat} (h : 0 < n) :
    idxRange s n = s :: idxRange (s + 1) (n - 1) := by
  obtain ⟨m, rfl⟩ : ∃ m, n = m + 1 := ⟨n - 1, by omega⟩
  rw [idxRange, List.range_succ_eq_map]
  simp only [List.map_cons, List.map_map, Nat.add_sub_cancel, Nat.cast_zero, add_zero]
  congr 1
  rw [idxRange]
  apply List.map_congr_left
  intro a _
  simp [Function.comp]
  omega

lemma idxRange_concat {s : Int} {n : Nat} (h : 0 < n) :
    idxRange s n = idxRange s (n - 1) ++ [s + (n : Int) - 1] := by
  obtain ⟨m, rfl⟩ : ∃ m, n = m + 1 := ⟨n - 1, by omega⟩
  rw [idxRange, List.range_succ]
  simp only [List.map_append, List.map_cons, List.map_nil, Nat.add_sub_cancel]
  rw [idxRange]
  congr 1
  simp
  omega

lemma indicesOf_head {E : Extent} (h : 0 < elemCount E) :
    (indicesOf E).head? = some (beginIdx E) := by
  induction E with
  | nil => simp [indicesOf, beginIdx]
  | cons p rest ih =>
    obtain ⟨s, n⟩ := p
    obtain ⟨hn, hr⟩ := elemCount_pos_head h
    rw [indicesOf, idxRange_cons hn]
    rw [List.flatMap_cons, List.head?_append_of_ne_nil, List.head?_map, ih hr]
    · simp [beginIdx]
    · simp only [ne_eq, List.map_eq_nil_iff]
      exact indicesOf_ne_nil hr

lemma indicesOf_getLast {E : Extent} (h : 0 < elemCount E) :
    (indicesOf E).getLast? = some (lastIdx E) := by
  induction E with
  | nil => simp [indicesOf, lastIdx]
  | cons p rest ih =>
    obtain ⟨s, n⟩ := p
    obtain ⟨hn, hr⟩ := elemCount_pos_head h
    rw [indicesOf, idxRange_concat hn]
    rw [List.flatMap_append, List.flatMap_cons, List.flatMap_nil, List.append_nil]
    rw [List.getLast?_append_of_ne_nil, List.getLast?_map, ih hr]
    · simp [lastIdx]
    · simp only [ne_eq, List.map_eq_nil_iff]
      exact indicesOf_ne_nil hr

lemma advanceIdx_lastIdx {E : Extent} (h : 0 < elemCount E) :
    advanceIdx E (lastIdx E) = none := by
  induction E with
  | nil => simp [advanceIdx, lastIdx]
  | cons p rest ih =>
    obtain ⟨s, n⟩ := p
    obtain ⟨hn, hr⟩ := elemCount_pos_head h
    have h1 : lastIdx ((s, n) :: rest) = (s + (n : Int) - 1) :: lastIdx rest := by
      simp [lastIdx]
    have h2 : ¬ (s + (n : Int) - 1 + 1 < s + (n : Int)) := by omega
    rw [h1, advanceIdx, ih hr]
    simp [h2]

lemma idxRange_head {s : Int} {n : Nat} (h : 0 < n) :
    (idxRange s n).head? = some s := by
  rw [idxRange_cons h]
  rfl

lemma idxRange_chain (s : Int) (n : Nat) :
    List.Chain' (fun x y => y = x + 1) (idxRange s n) := by
  induction n generalizing s with
  | zero => simp [idxRange]
  | succ m ih =>
    rw [idxRange_cons (Nat.succ_pos m), List.chain'_cons']
    refine ⟨?_, by simpa using ih (s := s + 1)⟩
    intro y hy
    rcases Nat.eq_zero_or_pos m with rfl | hm
    · simp [idxRange] at hy
    · rw [Nat.succ_sub_one, idxRange_head hm] at hy
      simp at hy
      omega

lemma advanceIdx_inner {s : Int} {n : Nat} {rest : Extent} {x : Int} {a b : Index}
    (h : advanceIdx rest a = some b) :
    advanceIdx ((s, n) :: rest) (x :: a) = some (x :: b) := by
  rw [advanceIdx, h]

lemma advanceIdx_carry {s : Int} {n : Nat} {rest : Extent} {x : Int}
    (hr : 0 < elemCount rest) (hx : x + 1 < s + (n : Int)) :
    advanceIdx ((s, n) :: rest) (x :: lastIdx rest) = some ((x + 1) :: beginIdx rest) := by
  rw [advanceIdx, advanceIdx_lastIdx hr]
  simp [hx]

lemma chain_blocks {s : Int} {n : Nat} {rest : Extent}
    (hr : 0 < elemCount rest)
    (ihc : List.Chain' (fun a b => advanceIdx rest a = some b) (indicesOf rest)) :
    ∀ L : List Int, (∀ x ∈ L, x < s + (n : Int)) →
      List.Chain' (fun x y => y = x + 1) L →
      List.Chain' (fun a b => advanceIdx ((s, n) :: rest) a = some b)
        (L.flatMap (fun x => (indicesOf rest).map (fun xs => x :: xs))) := by
  intro L
  induction L with
  | nil => simp
  | cons x L ihL =>
    intro hb hc
    rw [List.flatMap_cons]
    have hblock : List.Chain' (fun a b => advanceIdx ((s, n) :: rest) a = some b)
        ((indicesOf rest).map (fun xs => x :: xs)) := by
      rw [List.chain'_map]
      exact ihc.imp (fun a b h => advanceIdx_inner h)
    cases L with
    | nil =>
      simpa using hblock
    | cons y L' =>
      rw [List.chain'_cons] at hc
      obtain ⟨hstep, hc'⟩ := hc
      refine List.Chain'.append hblock
        (ihL (fun z hz => hb z (List.mem_cons_of_mem x hz)) hc') ?_
      intro a ha b hbmem
      rw [List.getLast?_map, indicesOf_getLast hr, Option.map_some'] at ha
      rw [List.flatMap_cons, List.head?_append_of_ne_nil, List.head?_map,
        indicesOf_head hr, Option.map_some'] at hbmem
      · simp only [Option.mem_def, Option.some.injEq] at ha hbmem
        subst ha
        subst hbmem
        rw [hstep]
        exact advanceIdx_carry hr (by
          have := hb y (List.mem_cons_of_mem x (List.mem_cons_self y L'))
          omega)
      · simp only [ne_eq, List.map_eq_nil_iff]
        exact indicesOf_ne_nil hr

lemma indicesOf_chain (E : Extent) :
    List.Chain' (fun a b => advanceIdx E a = some b) (indicesOf E) := by
  induction E with
  | nil => simp [indicesOf]
  | cons p rest ih =>
    obtain ⟨s, n⟩ := p
    rcases Nat.eq_zero_or_pos (elemCount rest) with hr | hr
    · rw [indicesOf, indicesOf_eq_nil hr]
      simp only [List.map_nil]
      rw [show ((idxRange s n).flatMap fun _ => ([] : List Index)) = [] from by simp]
      exact List.chain'_nil
    · exact chain_blocks hr ih (idxRange s n) (fun x hx => (mem_idxRange.mp hx).2)
        (idxRange_chain s n)

lemma indicesOf_pairwise_lt (E : Extent) :
    List.Pairwise idxLt (indicesOf E) := by
  have h := (indicesOf_chain E).imp (fun a b h => advanceIdx_lt h)
  exact List.chain'_iff_pairwise.mp h

/-- Errors of the pipeline and iterator layer, from the spec taxonomy. -/
inductive PipelineError where
  | regionOutOfBounds
  | outOfBounds
deriving DecidableEq

/-- Read-only region iterator. Modelled from the spec: the state holds the
iteration region, the buffered extent of the underlying image (the flat
offset and the strides derive from it), and the current index position;
a position of none is the end sentinel, one past the last element. -/
structure ImageRegionConstIterator where
  bufAxes : Extent
  region : Extent
  pos : Option Index
deriving DecidableEq

/-- Flat offset of an index position relative to a buffered extent, using
the strides derived from the buffered sizes: the stride of an axis is the
product of the sizes of all faster axes. -/
def offsetIn : Extent → Index → Nat
  | [], [] => 0
  | (s, _) :: rest, x :: xs => (x - s).toNat * elemCount rest + offsetIn rest xs
  | _, _ => 0

/-- Construction of a read-only iterator from a buffer extent and a region.
Modelled from the spec: the construction requires bufferExtent ⊇
iterationExtent and fails with OutOfBoundsError otherwise. -/
def mkConstIterator (B E : Extent) : Except PipelineError ImageRegionConstIterator :=
  if contains B E then
    .ok { bufAxes := B, region := E,
          pos := if elemCount E = 0 then none else some (beginIdx E) }
  else
    .error .outOfBounds

/-- Operation goToBegin: position at the start corner of the region; an
empty region begins already at the end sentinel. -/
def ImageRegionConstIterator.GoToBegin (it : ImageRegionConstIterator) :
    ImageRegionConstIterator :=
  { it with pos := if elemCount it.region = 0 then none else some (beginIdx it.region) }

/-- Operation isAtEnd: true once the walk has advanced past the last
element of the region. -/
def ImageRegionConstIterator.IsAtEnd (it : ImageRegionConstIterator) : Bool :=
  it.pos.isNone

/-- Operation advance: one step of the row-major walk. -/
def ImageRegionConstIterator.advance (it : ImageRegionConstIterator) :
    ImageRegionConstIterator :=
  { it with pos := it.pos.bind (advanceIdx it.region) }

/-- Operation get: read the element under the iterator from the flat
buffer contents. -/
def ImageRegionConstIterator.Get (it : ImageRegionConstIterator)
    (data : List Int) : Int :=
  match it.pos with
  | some idx => data.getD (offsetIn it.bufAxes idx) 0
  | none => 0

/-- The sequence of index positions visited from a given iterator state,
bounded by a fuel argument; the walk stops at the end sentinel. -/
def traceAux : Nat → ImageRegionConstIterator → List Index
  | 0, _ => []
  | fuel + 1, it =>
    match it.pos with
    | none => []
    | some idx => idx :: traceAux fuel it.advance

/-- The full walk of the iterator region: goToBegin, then advance until
isAtEnd, recording each visited index position. -/
def walkTrace (it : ImageRegionConstIterator) : List Index :=
  traceAux (elemCount it.region) it.GoToBegin

/-- Iterated advance. -/
def ImageRegionConstIterator.advanceN (it : ImageRegionConstIterator) :
    Nat → ImageRegionConstIterator
  | 0 => it
  | k + 1 => (it.advance).advanceN k

lemma advance_region (it : ImageRegionConstIterator) :
    it.advance.region = it.region := rfl

lemma traceAux_of_chain :
    ∀ (l : List Index) (it : ImageRegionConstIterator),
      List.Chain' (fun a b => advanceIdx it.region a = some b) l →
      (∀ a, l.getLast? = some a → advanceIdx it.region a = none) →
      it.pos = l.head? →
      traceAux l.length it = l := by
  intro l
  induction l with
  | nil =>
    intro it _ _ hpos
    simp [traceAux]
  | cons a l' ih =>
    intro it hchain hlast hpos
    simp only [List.head?] at hpos
    rw [List.length_cons, traceAux, hpos]
    show a :: traceAux l'.length it.advance = a :: l'
    congr 1
    cases l' with
    | nil =>
      simp [traceAux]
    | cons b l'' =>
      rw [List.chain'_cons] at hchain
      refine ih it.advance ?_ ?_ ?_
      · rw [advance_region]
        exact hchain.2
      · intro c hc
        rw [advance_region]
        exact hlast c (by rw [List.getLast?_cons_cons]; exact hc)
      · rw [ImageRegionConstIterator.advance, hpos]
        simpa using hchain.1

lemma advanceN_of_chain :
    ∀ (l : List Index) (it : ImageRegionConstIterator),
      List.Chain' (fun a b => advanceIdx it.region a = some b) l →
      (∀ a, l.getLast? = some a → advanceIdx it.region a = none) →
      it.pos = l.head? →
      (it.advanceN l.length).pos = none := by
  intro l
  induction l with
  | nil =>
    intro it _ _ hpos
    simpa [ImageRegionConstIterator.advanceN] using hpos
  | cons a l' ih =>
    intro it hchain hlast hpos
    simp only [List.head?] at hpos
    rw [List.length_cons, ImageRegionConstIterator.advanceN]
    cases l' with
    | nil =>
      have h := hlast a (by simp)
      have hadv : it.advance.pos = none := by
        rw [ImageRegionConstIterator.advance, hpos]
        simpa using h
      simpa [ImageRegionConstIterator.advanceN] using hadv
    | cons b l'' =>
      rw [List.chain'_cons] at hchain
      refine ih it.advance ?_ ?_ ?_
      · rw [advance_region]
        exact hchain.2
      · intro c hc
        rw [advance_region]
        exact hlast c (by rw [List.getLast?_cons_cons]; exact hc)
      · rw [ImageRegionConstIterator.advance, hpos]
        simpa using hchain.1

lemma goToBegin_region (it : ImageRegionConstIterator) :
    it.GoToBegin.region = it.region := rfl

lemma walkTrace_eq (it : ImageRegionConstIterator) :
    walkTrace it = indicesOf it.region := by
  rw [walkTrace]
  rcases Nat.eq_zero_or_pos (elemCount it.region) with h0 | h0
  · rw [h0, indicesOf_eq_nil h0]
    rfl
  · have hlen : elemCount it.region = (indicesOf it.region).length :=
      (indicesOf_length it.region).symm
    rw [hlen]
    refine traceAux_of_chain (indicesOf it.region) it.GoToBegin ?_ ?_ ?_
    · rw [goToBegin_region]
      exact indicesOf_chain it.region
    · intro a ha
      rw [indicesOf_getLast h0] at ha
      obtain rfl : a = lastIdx it.region := by simpa using ha.symm
      exact advanceIdx_lastIdx h0
    · show (if elemCount it.region = 0 then none else some (beginIdx it.region)) = _
      rw [if_neg (by omega), indicesOf_head h0]

/-- Division of the integer interval [s, s+n) into k consecutive pieces.
Modelled from the spec: the splitter partitions deterministically into
near-equal consecutive slabs; here the first piece receives the ceiling
of n/k elements and the remainder is divided recursively among the
remaining k-1 pieces. -/
def splitInterval (s : Int) (n k : Nat) : List (Int × Nat) :=
  match k with
  | 0 => []
  | j + 1 =>
    let c := (n + j) / (j + 1)
    (s, c) :: splitInterval (s + (c : Int)) (n - c) j

lemma splitInterval_length (s : Int) (n k : Nat) :
    (splitInterval s n k).length = k := by
  induction k generalizing s n with
  | zero => rfl
  | succ j ih => simp [splitInterval, ih]

lemma ceil_le_total (n j : Nat) : (n + j) / (j + 1) ≤ n := by
  rw [Nat.div_le_iff_le_mul_add_pred (Nat.succ_pos j)]
  have hexp : (j + 1) * n = j * n + n := by ring
  have hz : 0 ≤ j * n := Nat.zero_le _
  have hj : j + 1 - 1 = j := by omega
  rw [hj, hexp]
  linarith

lemma total_le_ceil_mul (n j : Nat) : n ≤ (j + 1) * ((n + j) / (j + 1)) := by
  have heq := Nat.div_add_mod (n + j) (j + 1)
  have hr := Nat.mod_lt (n + j) (Nat.succ_pos j)
  linarith

lemma idxRange_append (s : Int) (c n : Nat) (h : c ≤ n) :
    idxRange s n = idxRange s c ++ idxRange (s + (c : Int)) (n - c) := by
  obtain ⟨d, rfl⟩ : ∃ d, n = c + d := ⟨n - c, by omega⟩
  have hd : c + d - c = d := by omega
  rw [hd, idxRange, idxRange, idxRange, List.range_add, List.map_append, List.map_map]
  congr 1
  apply List.map_congr_left
  intro a _
  simp only [Function.comp_apply]
  push_cast
  ring

lemma splitInterval_flatMap (s : Int) (n k : Nat) (h : k = 0 → n = 0) :
    (splitInterval s n k).flatMap (fun p => idxRange p.1 p.2) = idxRange s n := by
  induction k generalizing s n with
  | zero =>
    rw [h rfl]
    rfl
  | succ j ih =>
    rw [splitInterval, List.flatMap_cons]
    have hc : (n + j) / (j + 1) ≤ n := ceil_le_total n j
    rw [ih (s + ((n + j) / (j + 1) : Nat)) (n - (n + j) / (j + 1)) ?_]
    · exact (idxRange_append s _ n hc).symm
    · intro hj
      subst hj
      simp

lemma splitInterval_sizes_sum (s : Int) (n k : Nat) (h : k = 0 → n = 0) :
    ((splitInterval s n k).map (fun p => p.2)).sum = n := by
  have hlen := splitInterval_flatMap s n k h
  have h1 : ((splitInterval s n k).flatMap (fun p => idxRange p.1 p.2)).length
      = (idxRange s n).length := by rw [hlen]
  rw [List.length_flatMap, idxRange_length] at h1
  have h2 : (splitInterval s n k).map (fun p => p.2)
      = (splitInterval s n k).map (List.length ∘ fun p => idxRange p.1 p.2) := by
    apply List.map_congr_left
    intro p _
    simp [Function.comp_def, idxRange_length]
  rw [h2]
  exact h1

lemma splitInterval_sizes_pos (s : Int) (n k : Nat) (h1 : 1 ≤ k) (h2 : k ≤ n) :
    ∀ p ∈ splitInterval s n k, 1 ≤ p.2 := by
  induction k generalizing s n with
  | zero => omega
  | succ j ih =>
    intro p hp
    rw [splitInterval] at hp
    rcases List.mem_cons.mp hp with rfl | hp'
    · show 1 ≤ (n + j) / (j + 1)
      rw [Nat.le_div_iff_mul_le (Nat.succ_pos j)]
      omega
    · rcases Nat.eq_zero_or_pos j with rfl | hj
      · simp [splitInterval] at hp'
      · refine ih _ _ hj ?_ p hp'
        obtain ⟨d, rfl⟩ : ∃ d, n = j + 1 + d := ⟨n - (j + 1), by omega⟩
        have hceil : (j + 1 + d + j) / (j + 1) ≤ d + 1 := by
          rw [Nat.div_le_iff_le_mul_add_pred (Nat.succ_pos j)]
          have hexp : (j + 1) * (d + 1) = j * d + j + d + 1 := by ring
          have hz : 0 ≤ j * d := Nat.zero_le _
          have hjj : j + 1 - 1 = j := by omega
          rw [hjj, hexp]
          linarith
        omega

lemma splitInterval_sizes_le (s : Int) (n k c : Nat) (h : n ≤ k * c) :
    ∀ p ∈ splitInterval s n k, p.2 ≤ c := by
  induction k generalizing s n with
  | zero =>
    intro p hp
    simp [splitInterval] at hp
  | succ j ih =>
    intro p hp
    rw [splitInterval] at hp
    have hfirst : (n + j) / (j + 1) ≤ c := by
      rw [Nat.div_le_iff_le_mul_add_pred (Nat.succ_pos j)]
      have hjj : j + 1 - 1 = j := by omega
      rw [hjj]
      linarith
    rcases List.mem_cons.mp hp with rfl | hp'
    · exact hfirst
    · refine ih _ _ ?_ p hp'
      have hge := total_le_ceil_mul n j
      have hexp : (j + 1) * ((n + j) / (j + 1))
          = j * ((n + j) / (j + 1)) + (n + j) / (j + 1) := by ring
      have hexp2 : (j + 1) * c = j * c + c := by ring
      have hmul : j * ((n + j) / (j + 1)) ≤ j * c := Nat.mul_le_mul_left j hfirst
      have hsub : (n + j) / (j + 1) ≤ n := ceil_le_total n j
      have hgoal : n - (n + j) / (j + 1) + (n + j) / (j + 1) = n := by omega
      have : n - (n + j) / (j + 1) ≤ j * c := by
        have hn : n ≤ (j + 1) * c := h
        linarith
      linarith

lemma flatMap_congr {α β : Type} {l : List α} {f g : α → List β}
    (h : ∀ a ∈ l, f a = g a) : l.flatMap f = l.flatMap g := by
  induction l with
  | nil => rfl
  | cons a l ih =>
    rw [List.flatMap_cons, List.flatMap_cons, h a (by simp),
      ih (fun b hb => h b (by simp [hb]))]

lemma idxRange_one (x : Int) : idxRange x 1 = [x] := by
  have h : List.range 1 = [0] := rfl
  simp [idxRange, h]

/-- Recursive multi-axis split. Modelled from the spec: the splitter
prefers the slowest-varying axis (the head of the slowest-first axis
list), so each piece remains a maximal contiguous run in element order;
when the piece count k is at most the slowest axis size, that axis is cut
into k consecutive slabs, each keeping the faster axes whole; otherwise
the axis is cut fully into its unit slabs and the k pieces are divided
among the slabs by the same near-equal division, recursing into the
faster axes. -/
def splitAxes : Extent → Nat → List Extent
  | [], _ => [[]]
  | (s, n) :: rest, k =>
    if k ≤ n then
      (splitInterval s n k).map (fun p => p :: rest)
    else
      ((idxRange s n).zip ((splitInterval 0 k n).map (fun p => p.2))).flatMap
        (fun q => (splitAxes rest q.2).map (fun sub => (q.1, 1) :: sub))

/-- Top-level split operation of the RegionSplitter. Modelled from the
spec: a piece count larger than the total element count is clamped to the
element count, a normal outcome rather than an error; an extent with no
elements yields no pieces. -/
def split (E : Extent) (k : Nat) : List Extent :=
  if elemCount E = 0 then [] else splitAxes E (min k (elemCount E))

lemma branch_bounds {s : Int} {n k : Nat} {rest : Extent}
    (h1 : 1 ≤ k) (h2 : k ≤ elemCount ((s, n) :: rest)) (hk : ¬ k ≤ n) :
    1 ≤ n ∧ 1 ≤ elemCount rest ∧ k ≤ n * elemCount rest := by
  rw [elemCount_cons] at h2
  push_neg at hk
  refine ⟨?_, ?_, h2⟩
  · rcases Nat.eq_zero_or_pos n with rfl | hn
    · simp at h2
      omega
    · exact hn
  · rcases Nat.eq_zero_or_pos (elemCount rest) with he | he
    · rw [he, Nat.mul_zero] at h2
      omega
    · exact he

lemma splitAxes_flatMap (E : Extent) (k : Nat) (h1 : 1 ≤ k) (h2 : k ≤ elemCount E) :
    (splitAxes E k).flatMap indicesOf = indicesOf E := by
  induction E generalizing k with
  | nil => rfl
  | cons p rest ih =>
    obtain ⟨s, n⟩ := p
    rw [splitAxes]
    by_cases hk : k ≤ n
    · rw [if_pos hk, List.flatMap_map]
      have hcong : ∀ p ∈ splitInterval s n k,
          indicesOf (p :: rest)
            = (idxRange p.1 p.2).flatMap
                (fun x => (indicesOf rest).map (fun xs => x :: xs)) := by
        intro p _
        obtain ⟨a, b⟩ := p
        rfl
      rw [flatMap_congr hcong, ← List.flatMap_assoc,
        splitInterval_flatMap s n k (by omega)]
      rfl
    · obtain ⟨hn, hCr, hkC⟩ := branch_bounds h1 h2 hk
      rw [if_neg hk, List.flatMap_assoc]
      have hsizes_pos := splitInterval_sizes_pos 0 k n hn (by omega)
      have hsizes_le := splitInterval_sizes_le 0 k n (elemCount rest) hkC
      have hcong : ∀ q ∈ (idxRange s n).zip ((splitInterval 0 k n).map (fun p => p.2)),
          ((splitAxes rest q.2).map (fun sub => (q.1, 1) :: sub)).flatMap indicesOf
            = (indicesOf rest).map (fun xs => q.1 :: xs) := by
        intro q hq
        obtain ⟨x, a⟩ := q
        obtain ⟨-, ha⟩ := List.of_mem_zip hq
        obtain ⟨pp, hpp, rfl⟩ := List.mem_map.mp ha
        show ((splitAxes rest pp.2).map (fun sub => (x, 1) :: sub)).flatMap indicesOf
          = (indicesOf rest).map (fun xs => x :: xs)
        rw [List.flatMap_map]
        have hinner : ∀ sub ∈ splitAxes rest pp.2,
            indicesOf ((x, 1) :: sub)
              = (indicesOf sub).map (fun xs => x :: xs) := by
          intro sub _
          rw [indicesOf, idxRange_one, List.flatMap_cons, List.flatMap_nil,
            List.append_nil]
        rw [flatMap_congr hinner]
        rw [(List.map_flatMap (fun xs => x :: xs) indicesOf (splitAxes rest pp.2)).symm]
        rw [ih pp.2 (hsizes_pos pp hpp) (hsizes_le pp hpp)]
      rw [flatMap_congr hcong]
      rw [(List.flatMap_map Prod.fst
            (fun x => (indicesOf rest).map (fun xs => x :: xs))
            ((idxRange s n).zip ((splitInterval 0 k n).map (fun p => p.2)))).symm]
      rw [List.map_fst_zip]
      · rfl
      · rw [idxRange_length, List.length_map, splitInterval_length]

lemma splitAxes_length (E : Extent) (k : Nat) (h1 : 1 ≤ k) (h2 : k ≤ elemCount E) :
    (splitAxes E k).length = k := by
  induction E generalizing k with
  | nil =>
    have : elemCount ([] : Extent) = 1 := rfl
    rw [this] at h2
    show 1 = k
    omega
  | cons p rest ih =>
    obtain ⟨s, n⟩ := p
    rw [splitAxes]
    by_cases hk : k ≤ n
    · rw [if_pos hk, List.length_map, splitInterval_length]
    · obtain ⟨hn, hCr, hkC⟩ := branch_bounds h1 h2 hk
      rw [if_neg hk, List.length_flatMap]
      have hsizes_pos := splitInterval_sizes_pos 0 k n hn (by omega)
      have hsizes_le := splitInterval_sizes_le 0 k n (elemCount rest) hkC
      have hcong : ∀ q ∈ (idxRange s n).zip ((splitInterval 0 k n).map (fun p => p.2)),
          (List.length ∘ fun t => (splitAxes rest t.2).map (fun sub => (t.1, 1) :: sub)) q
            = Prod.snd q := by
        intro q hq
        obtain ⟨x, a⟩ := q
        obtain ⟨-, ha⟩ := List.of_mem_zip hq
        obtain ⟨pp, hpp, rfl⟩ := List.mem_map.mp ha
        show ((splitAxes rest pp.2).map _).length = pp.2
        rw [List.length_map, ih pp.2 (hsizes_pos pp hpp) (hsizes_le pp hpp)]
      rw [List.map_congr_left hcong, List.map_snd_zip]
      · exact splitInterval_sizes_sum 0 k n (by omega)
      · rw [idxRange_length, List.length_map, splitInterval_length]

lemma offsetIn_lt {E : Extent} {idx : Index} (h : inAxes E idx = true) :
    offsetIn E idx < elemCount E := by
  induction E generalizing idx with
  | nil =>
    cases idx with
    | nil =>exact Nat.zero_lt_one
    | cons x xs => simp [inAxes] at h
  | cons p rest ih =>
    obtain ⟨s, n⟩ := p
    cases idx with
    | nil => simp [inAxes] at h
    | cons x xs =>
      rw [inAxes] at h
      simp only [Bool.and_eq_true, decide_eq_true_eq] at h
      obtain ⟨⟨hx1, hx2⟩, hxs⟩ := h
      have hr := ih hxs
      have hq : (x - s).toNat < n := by omega
      rw [offsetIn, elemCount_cons]
      obtain ⟨m, rfl⟩ : ∃ m, n = m + 1 := ⟨n - 1, by omega⟩
      have hqm : (x - s).toNat ≤ m := by omega
      have hmul : (x - s).toNat * elemCount rest ≤ m * elemCount rest :=
        Nat.mul_le_mul_right _ hqm
      have hexp : (m + 1) * elemCount rest = m * elemCount rest + elemCount rest :=
        Nat.succ_mul m _
      omega


lemma flatMap_get_uniform {α β : Type} :
    ∀ (L : List α) (f : α → List β) (C : Nat),
      (∀ a ∈ L, (f a).length = C) →
      ∀ q r, r < C → ∀ hq : q < L.length,
        (L.flatMap f)[q * C + r]? = (f L[q])[r]? := by
  intro L
  induction L with
  | nil =>
    intro f C _ q r _ hq
    simp at hq
  | cons a L' ih =>
    intro f C hC q r hr hq
    rw [List.flatMap_cons]
    cases q with
    | zero =>
      rw [List.getElem?_append]
      have hlen : (f a).length = C := hC a (by simp)
      rw [if_pos (by omega)]
      simp
    | succ q' =>
      rw [List.getElem?_append]
      have hlen : (f a).length = C := hC a (by simp)
      have hge : ¬ ((q' + 1) * C + r < (f a).length) := by
        have hexp : (q' + 1) * C = q' * C + C := Nat.succ_mul q' C
        omega
      rw [if_neg hge]
      have hsub : (q' + 1) * C + r - (f a).length = q' * C + r := by
        have hexp : (q' + 1) * C = q' * C + C := Nat.succ_mul q' C
        omega
      rw [hsub]
      have hq' : q' < L'.length := by
        rw [List.length_cons] at hq
        omega
      rw [ih f C (fun b hb => hC b (by simp [hb])) q' r hr hq']
      congr 1

lemma idxRange_getElem {s : Int} {n i : Nat}
    (h2 : i < (idxRange s n).length) :
    (idxRange s n)[i] = s + (i : Int) := by
  simp [idxRange]

lemma indicesOf_get_offset {E : Extent} {idx : Index} (h : inAxes E idx = true) :
    (indicesOf E)[offsetIn E idx]? = some idx := by
  induction E generalizing idx with
  | nil =>
    cases idx with
    | nil => rfl
    | cons x xs => simp [inAxes] at h
  | cons p rest ih =>
    obtain ⟨s, n⟩ := p
    cases idx with
    | nil => simp [inAxes] at h
    | cons x xs =>
      rw [inAxes] at h
      simp only [Bool.and_eq_true, decide_eq_true_eq] at h
      obtain ⟨⟨hx1, hx2⟩, hxs⟩ := h
      have hr := offsetIn_lt hxs
      have hq : (x - s).toNat < n := by omega
      rw [indicesOf, offsetIn]
      have hu := flatMap_get_uniform (idxRange s n)
        (fun y => (indicesOf rest).map (fun t => y :: t)) (elemCount rest)
        (fun y _ => by rw [List.length_map, indicesOf_length])
        ((x - s).toNat) (offsetIn rest xs) hr
        (by rw [idxRange_length]; exact hq)
      rw [hu, List.getElem?_map, ih hxs,
        idxRange_getElem (by rw [idxRange_length]; exact hq)]
      simp only [Option.map_some', Option.some.injEq, List.cons.injEq]
      constructor
      · omega
      · trivial

lemma read_map_offset {E : Extent} {idx : Index} (f : Index → Int)
    (h : inAxes E idx = true) :
    ((indicesOf E).map f).getD (offsetIn E idx) 0 = f idx := by
  rw [List.getD_eq_getElem?_getD, List.getElem?_map, indicesOf_get_offset h]
  rfl

lemma inAxes_false_of_empty {E : Extent} (h : elemCount E = 0) (idx : Index) :
    inAxes E idx = false := by
  by_contra hc
  have hmem : idx ∈ indicesOf E := mem_indicesOf.mpr (by simpa using hc)
  rw [indicesOf_eq_nil h] at hmem
  simp at hmem

lemma split_flatMap (E : Extent) (k : Nat) (h1 : 1 ≤ k) :
    (split E k).flatMap indicesOf = indicesOf E := by
  rw [split]
  by_cases h0 : elemCount E = 0
  · rw [if_pos h0, indicesOf_eq_nil h0]
    rfl
  · rw [if_neg h0]
    exact splitAxes_flatMap E _ (le_min h1 (by omega)) (min_le_right _ _)

lemma split_length (E : Extent) (k : Nat) (h1 : 1 ≤ k) :
    (split E k).length = min k (elemCount E) := by
  rw [split]
  by_cases h0 : elemCount E = 0
  · rw [if_pos h0, h0]
    simp
  · rw [if_neg h0]
    exact splitAxes_length E _ (le_min h1 (by omega)) (min_le_right _ _)

lemma split_pairwise_disjoint (E : Extent) (k : Nat) (h1 : 1 ≤ k) :
    List.Pairwise
      (fun P Q => ∀ idx, inAxes P idx = true → inAxes Q idx = true → False)
      (split E k) := by
  have hno : ((split E k).flatMap indicesOf).Nodup := by
    rw [split_flatMap E k h1]
    exact indicesOf_nodup E
  have hpw := (List.nodup_flatMap.mp hno).2
  refine hpw.imp ?_
  intro P Q hdisj idx hP hQ
  exact hdisj (mem_indicesOf.mpr hP) (mem_indicesOf.mpr hQ)

lemma split_union (E : Extent) (k : Nat) (h1 : 1 ≤ k) (idx : Index) :
    inAxes E idx = true ↔ ∃ P ∈ split E k, inAxes P idx = true := by
  rw [← mem_indicesOf, ← split_flatMap E k h1, List.mem_flatMap]
  constructor
  · rintro ⟨P, hP, hm⟩
    exact ⟨P, hP, mem_indicesOf.mp hm⟩
  · rintro ⟨P, hP, hm⟩
    exact ⟨P, hP, mem_indicesOf.mpr hm⟩

lemma split_piece_sub {E : Extent} {k : Nat} (h1 : 1 ≤ k) {P : Extent}
    (hP : P ∈ split E k) {idx : Index} (h : inAxes P idx = true) :
    inAxes E idx = true :=
  (split_union E k h1 idx).mpr ⟨P, hP, h⟩

/-- Mutable region iterator. From the source header
itkImageRegionIterator.h: the class derives from ImageRegionConstIterator;
most of the functionality is inherited and the class only adds write
access to the pixels, so the model wraps the read-only iterator state. -/
structure ImageRegionIterator extends ImageRegionConstIterator
deriving DecidableEq

/-- Construction of a mutable iterator: identical containment check, then
the shared state. -/
def mkIterator (B E : Extent) : Except PipelineError ImageRegionIterator :=
  (mkConstIterator B E).map (fun c => { toImageRegionConstIterator := c })

/-- Inherited goToBegin: delegation to the shared walking state. -/
def ImageRegionIterator.GoToBegin (it : ImageRegionIterator) : ImageRegionIterator :=
  { toImageRegionConstIterator := it.toImageRegionConstIterator.GoToBegin }

/-- Inherited isAtEnd: delegation to the shared walking state. -/
def ImageRegionIterator.IsAtEnd (it : ImageRegionIterator) : Bool :=
  it.toImageRegionConstIterator.IsAtEnd

/-- Inherited advance: delegation to the shared walking state. -/
def ImageRegionIterator.advance (it : ImageRegionIterator) : ImageRegionIterator :=
  { toImageRegionConstIterator := it.toImageRegionConstIterator.advance }

/-- Inherited read access: delegation to the shared walking state. -/
def ImageRegionIterator.Get (it : ImageRegionIterator) (data : List Int) : Int :=
  it.toImageRegionConstIterator.Get data

/-- Iterated advance on the mutable iterator. -/
def ImageRegionIterator.advanceN (it : ImageRegionIterator) :
    Nat → ImageRegionIterator
  | 0 => it
  | m + 1 => (it.advance).advanceN m

/-- Write access Set, from the source header: the value is stored at
m_Buffer + m_Offset, the flat offset of the current position inside the
buffered extent; the method is const-qualified in the source and does not
touch the iterator state, so the model returns the iterator unchanged
together with the updated buffer contents. -/
def ImageRegionIterator.Set (it : ImageRegionIterator) (data : List Int)
    (v : Int) : ImageRegionIterator × List Int :=
  match it.pos with
  | some idx => (it, data.set (offsetIn it.bufAxes idx) v)
  | none => (it, data)

/-- Read through Value, from the source header: a direct reference to the
element at m_Buffer + m_Offset. -/
def ImageRegionIterator.Value (it : ImageRegionIterator) (data : List Int) : Int :=
  match it.pos with
  | some idx => data.getD (offsetIn it.bufAxes idx) 0
  | none => 0

/-- Legacy operation Begin. Modelled from the spec and the source doc
comment: returns an iterator for the beginning of the region, where Begin
is defined as the first pixel in the region. -/
def ImageRegionIterator.Begin (it : ImageRegionIterator) : ImageRegionIterator :=
  { toImageRegionConstIterator :=
      { it.toImageRegionConstIterator with pos := some (beginIdx it.region) } }

/-- Legacy operation End. Modelled from the spec and the source doc
comment: returns an iterator for the end of the region, where End is
defined as one pixel past the last pixel of the region, i.e. the end
sentinel. -/
def ImageRegionIterator.End (it : ImageRegionIterator) : ImageRegionIterator :=
  { toImageRegionConstIterator :=
      { it.toImageRegionConstIterator with pos := none } }

/-- A data object of the pipeline. Modelled from the spec: a DataObject
holds the whole, requested and buffered extents, the monotone
modification counter, and the flat buffer contents addressed by the
strides derived from the buffered extent. -/
structure DataObj where
  whole : Extent
  requested : Extent
  buffered : Extent
  mtime : Nat
  pixels : List Int

/-- A pipeline node. Modelled from the spec: a ProcessObject holds its own
modification counter, bumped on configuration change; the model keeps the
pointwise function the node applies and the computation counter observed
by the monitoring filter of the streaming test. -/
structure PNode where
  fn : Int → Int
  mtime : Nat
  count : Nat

/-- Reading one element of a data object at an index position, through
the flat offset derived from the buffered extent. -/
def readAt (o : DataObj) (idx : Index) : Int :=
  o.pixels.getD (offsetIn o.buffered idx) 0

/-- Reading a whole sub-extent of a data object, element by element in
row-major order, as a consumer of the pipeline does through the region
iterator. -/
def readRegion (o : DataObj) (R : Extent) : List Int :=
  (indicesOf R).map (readAt o)

/-- A linear pipeline: an external reader (black box supplying the source
whole extent and contents) feeding a chain of pointwise filter nodes,
each owning its output data object. Modelled from the spec: the executor
walks this chain; clock is the global monotone time source for the
modification counters. -/
structure Pipeline where
  clock : Nat
  srcFn : Index → Int
  srcWhole : Extent
  srcNode : PNode
  srcOut : DataObj
  chain : List (PNode × DataObj)

/-- Phase 1, information propagation. Modelled from the spec: each node
computes the whole extent of its output from the whole extent of its
input, upstream to downstream; the chain nodes are identity on metadata,
so every whole extent becomes the source whole extent. -/
def phase1 (p : Pipeline) : Pipeline :=
  { p with
    srcOut := { p.srcOut with whole := p.srcWhole },
    chain := p.chain.map (fun q => (q.1, { q.2 with whole := p.srcWhole })) }

/-- Phase 2, requested-region propagation. Modelled from the spec: the
terminal requested extent is propagated downstream to upstream; the chain
nodes request from their input exactly what is requested of them. -/
def setRequested (p : Pipeline) (R : Extent) : Pipeline :=
  { p with
    srcOut := { p.srcOut with requested := R },
    chain := p.chain.map (fun q => (q.1, { q.2 with requested := R })) }

/-- Phase 3 step of the source node. Modelled from the spec: the node is
recomputed iff its own modification time exceeds the output modification
time or the output buffered extent does not contain the requested extent;
on recomputation it materializes the requested extent from the external
reader, sets the buffered extent and bumps the modification time from the
global clock. -/
def stepSrc (clock : Nat) (f : Index → Int) (nd : PNode) (o : DataObj) :
    Nat × PNode × DataObj :=
  if nd.mtime > o.mtime || !(contains o.buffered o.requested) then
    (clock + 1,
     { nd with count := nd.count + 1 },
     { o with buffered := o.requested,
              pixels := (indicesOf o.requested).map f,
              mtime := clock + 1 })
  else (clock, nd, o)

/-- Phase 3 step of a chain node. Modelled from the spec: the node is
recomputed iff its own modification time exceeds the output modification
time, or the input modification time is newer than the output one, or the
output buffered extent does not contain the requested extent; on
recomputation it materializes exactly the requested extent by applying
its pointwise function to the input read at each index position, sets the
buffered extent and bumps the modification time from the global clock. -/
def stepNode (clock : Nat) (input : DataObj) (nd : PNode) (o : DataObj) :
    Nat × PNode × DataObj :=
  if nd.mtime > o.mtime || input.mtime > o.mtime
      || !(contains o.buffered o.requested) then
    (clock + 1,
     { nd with count := nd.count + 1 },
     { o with buffered := o.requested,
              pixels := (indicesOf o.requested).map (fun idx => nd.fn (readAt input idx)),
              mtime := clock + 1 })
  else (clock, nd, o)

/-- Phase 3 walk of the chain, upstream to downstream, threading the
clock and the produced input of each stage. -/
def runChain (clock : Nat) (input : DataObj) :
    List (PNode × DataObj) → Nat × List (PNode × DataObj)
  | [] => (clock, [])
  | (nd, o) :: rest =>
    let r := stepNode clock input nd o
    let rr := runChain r.1 r.2.2 rest
    (rr.1, (r.2.1, r.2.2) :: rr.2)

/-- The full three-phase update protocol, invoked with the terminal
requested extent. Modelled from the spec: phase 1 propagates metadata,
phase 2 propagates the requested extent and fails with
RegionOutOfBoundsError when it is not contained in the whole extent,
before any buffer is touched; phase 3 then generates data upstream to
downstream. The possibly modified pipeline state is returned in both the
success and the failure case. -/
def update (p : Pipeline) (R : Extent) : Except PipelineError Unit × Pipeline :=
  let p2 := setRequested (phase1 p) R
  if contains p.srcWhole R then
    let r := stepSrc p2.clock p2.srcFn p2.srcNode p2.srcOut
    let rr := runChain r.1 r.2.2 p2.chain
    (.ok (), { p2 with clock := rr.1, srcNode := r.2.1, srcOut := r.2.2, chain := rr.2 })
  else
    (.error .regionOutOfBounds, p2)

/-- The terminal output data object of the pipeline: the output of the
last chain node, or the source output for an empty chain. -/
def finalOut (p : Pipeline) : DataObj :=
  p.chain.foldl (fun _ q => q.2) p.srcOut

/-- The pure denotation of the pipeline at one index position: the
composite of the chain functions applied to the reader content. -/
def denote (p : Pipeline) (idx : Index) : Int :=
  p.chain.foldl (fun v q => q.1.fn v) (p.srcFn idx)

/-- The streaming driver. Modelled from the spec: split the final
requested extent into k pieces once, then for each piece in order set it
as the terminal requested extent, run the full update protocol, and
consume the resulting buffer before moving to the next piece; the
consumed outputs are concatenated. -/
def streamUpdate (p : Pipeline) (R : Extent) (k : Nat) : Pipeline × List Int :=
  (split R k).foldl
    (fun acc piece =>
      let r := update acc.1 piece
      (r.2, acc.2 ++ readRegion (finalOut r.2) piece))
    (p, [])

lemma constIterator_ext {a b : ImageRegionConstIterator}
    (h1 : a.bufAxes = b.bufAxes) (h2 : a.region = b.region)
    (h3 : a.pos = b.pos) : a = b := by
  cases a
  cases b
  simp_all

lemma mutIterator_ext {a b : ImageRegionIterator}
    (h : a.toImageRegionConstIterator = b.toImageRegionConstIterator) : a = b := by
  cases a
  cases b
  simp_all

lemma advanceN_bufAxes (it : ImageRegionConstIterator) :
    ∀ n, (it.advanceN n).bufAxes = it.bufAxes := by
  intro n
  induction n generalizing it with
  | zero => rfl
  | succ m ih => exact ih it.advance

lemma advanceN_region (it : ImageRegionConstIterator) :
    ∀ n, (it.advanceN n).region = it.region := by
  intro n
  induction n generalizing it with
  | zero => rfl
  | succ m ih => exact ih it.advance

lemma mut_advanceN_toC (it : ImageRegionIterator) :
    ∀ n, (it.advanceN n).toImageRegionConstIterator
      = it.toImageRegionConstIterator.advanceN n := by
  intro n
  induction n generalizing it with
  | zero => rfl
  | succ m ih => exact ih it.advance

lemma goToBegin_advanceN_end {it : ImageRegionConstIterator}
    (h : 0 < elemCount it.region) :
    (it.GoToBegin.advanceN (elemCount it.region)).pos = none := by
  have hlen : elemCount it.region = (indicesOf it.region).length :=
    (indicesOf_length it.region).symm
  rw [hlen]
  refine advanceN_of_chain (indicesOf it.region) it.GoToBegin ?_ ?_ ?_
  · rw [goToBegin_region]
    exact indicesOf_chain it.region
  · intro a ha
    rw [indicesOf_getLast h] at ha
    obtain rfl : a = lastIdx it.region := by simpa using ha.symm
    exact advanceIdx_lastIdx h
  · show (if elemCount it.region = 0 then none else some (beginIdx it.region)) = _
    rw [if_neg (by omega), indicesOf_head h]

/-- C3: for every buffer extent B and iteration extent E with B ⊇ E, the
iterator construction succeeds and the full walk of E (goToBegin, then
advance until isAtEnd) visits exactly elemCount E positions, visits an
index position precisely when it lies in E, visits no position twice, and
visits the positions in strictly increasing row-major order. -/
theorem regionIterator_walk (B E : Extent) (h : contains B E = true) :
    ∃ it, mkConstIterator B E = .ok it ∧ it.region = E ∧
      (walkTrace it).length = elemCount E ∧
      (∀ idx, idx ∈ walkTrace it ↔ inAxes E idx = true) ∧
      (walkTrace it).Nodup ∧
      List.Pairwise idxLt (walkTrace it) := by
  refine ⟨{ bufAxes := B, region := E,
            pos := if elemCount E = 0 then none else some (beginIdx E) },
    ?_, rfl, ?_, ?_, ?_, ?_⟩
  · rw [mkConstIterator, if_pos h]
  · rw [walkTrace_eq]
    exact indicesOf_length E
  · intro idx
    rw [walkTrace_eq]
    exact mem_indicesOf
  · rw [walkTrace_eq]
    exact indicesOf_nodup E
  · rw [walkTrace_eq]
    exact indicesOf_pairwise_lt E

/-- Witness for C3 at a concrete buffer and region. -/
theorem regionIterator_walk_witness :
    contains [((0 : Int), 2), ((0 : Int), 3)] [((0 : Int), 2), ((1 : Int), 2)] = true ∧
    (∃ it, mkConstIterator [((0 : Int), 2), ((0 : Int), 3)]
          [((0 : Int), 2), ((1 : Int), 2)] = .ok it ∧
        it.region = [((0 : Int), 2), ((1 : Int), 2)] ∧
        (walkTrace it).length = elemCount [((0 : Int), 2), ((1 : Int), 2)] ∧
        (∀ idx, idx ∈ walkTrace it ↔
          inAxes [((0 : Int), 2), ((1 : Int), 2)] idx = true) ∧
        (walkTrace it).Nodup ∧
        List.Pairwise idxLt (walkTrace it)) :=
  ⟨by decide, regionIterator_walk _ _ (by decide)⟩

/-- C7: for the same buffer and region, the mutable iterator and the
read-only iterator produce identical state sequences under goToBegin and
advance, identical end tests and identical read results; construction is
the shared one; the mutable variant only adds write access on top. -/
theorem mutable_iterator_shares_walk (c : ImageRegionConstIterator) (n : Nat)
    (data : List Int) (B E : Extent) :
    ((ImageRegionIterator.mk c).GoToBegin.advanceN n).toImageRegionConstIterator
        = c.GoToBegin.advanceN n ∧
    ((ImageRegionIterator.mk c).GoToBegin.advanceN n).IsAtEnd
        = (c.GoToBegin.advanceN n).IsAtEnd ∧
    ((ImageRegionIterator.mk c).GoToBegin.advanceN n).Get data
        = (c.GoToBegin.advanceN n).Get data ∧
    mkIterator B E = (mkConstIterator B E).map (fun d => ImageRegionIterator.mk d) := by
  have hst : ((ImageRegionIterator.mk c).GoToBegin.advanceN n).toImageRegionConstIterator
      = c.GoToBegin.advanceN n := by
    rw [mut_advanceN_toC]
    rfl
  refine ⟨hst, ?_, ?_, rfl⟩
  · rw [ImageRegionIterator.IsAtEnd, hst]
  · rw [ImageRegionIterator.Get, hst]

/-- C8: the retained legacy operations are exact aliases: on a nonempty
region, Begin equals the goToBegin state, End satisfies isAtEnd, and End
is exactly the state one past the last element, reached by advancing
elemCount times from the beginning. -/
theorem legacy_begin_end (it : ImageRegionIterator)
    (h : 0 < elemCount it.region) :
    it.Begin = it.GoToBegin ∧
    (it.End).IsAtEnd = true ∧
    it.GoToBegin.advanceN (elemCount it.region) = it.End := by
  refine ⟨?_, rfl, ?_⟩
  · apply mutIterator_ext
    refine constIterator_ext ?_ ?_ ?_
    · rfl
    · rfl
    · show some (beginIdx it.region)
        = if elemCount it.region = 0 then none else some (beginIdx it.region)
      rw [if_neg (by omega)]
  · apply mutIterator_ext
    rw [mut_advanceN_toC]
    apply constIterator_ext
    · rw [advanceN_bufAxes]
      rfl
    · rw [advanceN_region]
      rfl
    · show (ImageRegionConstIterator.advanceN _ _).pos = none
      exact goToBegin_advanceN_end h

/-- Witness for C8 at a concrete iterator. -/
theorem legacy_begin_end_witness :
    (0 : Nat) < elemCount ([((0 : Int), 2)] : Extent) ∧
    (let it : ImageRegionIterator :=
      ImageRegionIterator.mk
        { bufAxes := [((0 : Int), 2)], region := [((0 : Int), 2)], pos := none };
     it.Begin = it.GoToBegin ∧
     (it.End).IsAtEnd = true ∧
     it.GoToBegin.advanceN (elemCount it.region) = it.End) :=
  ⟨by decide,
   legacy_begin_end
     (ImageRegionIterator.mk
       { bufAxes := [((0 : Int), 2)], region := [((0 : Int), 2)], pos := none })
     (by decide)⟩

/-- C10: writing through Set changes only the pixel at the current flat
offset of the iterator in the buffer: the iterator itself (state,
position, region) is returned unchanged, the buffer keeps its length, the
written cell holds the new value, and every other cell is unchanged. -/
theorem set_frame (it : ImageRegionIterator) (data : List Int) (v : Int)
    (idx : Index) (hpos : it.pos = some idx)
    (hlt : offsetIn it.bufAxes idx < data.length) :
    (it.Set data v).1 = it ∧
    ((it.Set data v).2).length = data.length ∧
    ((it.Set data v).2)[offsetIn it.bufAxes idx]? = some v ∧
    (∀ j, j ≠ offsetIn it.bufAxes idx → ((it.Set data v).2)[j]? = data[j]?) := by
  rw [ImageRegionIterator.Set, hpos]
  refine ⟨rfl, List.length_set data _ v, List.getElem?_set_self hlt, ?_⟩
  intro j hj
  exact List.getElem?_set_ne (fun hc => hj hc.symm)

/-- Witness for C10 at a concrete iterator, buffer and value. -/
theorem set_frame_witness :
    (ImageRegionIterator.mk
        { bufAxes := [((0 : Int), 3)], region := [((0 : Int), 3)],
          pos := some [1] } : ImageRegionIterator).pos = some [(1 : Int)] ∧
    offsetIn [((0 : Int), 3)] [(1 : Int)] < ([5, 6, 7] : List Int).length ∧
    (let it : ImageRegionIterator :=
      ImageRegionIterator.mk
        { bufAxes := [((0 : Int), 3)], region := [((0 : Int), 3)],
          pos := some [1] };
     (it.Set [5, 6, 7] 9).1 = it ∧
     ((it.Set [5, 6, 7] 9).2).length = ([5, 6, 7] : List Int).length ∧
     ((it.Set [5, 6, 7] 9).2)[offsetIn it.bufAxes [(1 : Int)]]? = some 9 ∧
     (∀ j, j ≠ offsetIn it.bufAxes [(1 : Int)] →
       ((it.Set [5, 6, 7] 9).2)[j]? = ([5, 6, 7] : List Int)[j]?)) :=
  ⟨rfl, by decide,
   set_frame
     (ImageRegionIterator.mk
       { bufAxes := [((0 : Int), 3)], region := [((0 : Int), 3)],
         pos := some [1] })
     [5, 6, 7] 9 [1] rfl (by decide)⟩

/-- C2: for every extent E and piece count k ≥ 1, the split returns an
ordered sequence of pairwise-disjoint extents whose union is exactly E,
and the number of returned pieces is the requested count clamped to the
total element count of E. -/
theorem split_correct (E : Extent) (k : Nat) (hk : 1 ≤ k) :
    List.Pairwise
      (fun P Q => ∀ idx, inAxes P idx = true → inAxes Q idx = true → False)
      (split E k) ∧
    (∀ idx, inAxes E idx = true ↔ ∃ P ∈ split E k, inAxes P idx = true) ∧
    (split E k).length = min k (elemCount E) :=
  ⟨split_pairwise_disjoint E k hk, split_union E k hk, split_length E k hk⟩

/-- Witness for C2 at a concrete extent and piece count exceeding the
element count, showing the clamping. -/
theorem split_correct_witness :
    (1 : Nat) ≤ 7 ∧
    (List.Pairwise
      (fun P Q => ∀ idx, inAxes P idx = true → inAxes Q idx = true → False)
      (split [((0 : Int), 2), ((0 : Int), 3)] 7) ∧
    (∀ idx, inAxes [((0 : Int), 2), ((0 : Int), 3)] idx = true ↔
      ∃ P ∈ split [((0 : Int), 2), ((0 : Int), 3)] 7, inAxes P idx = true) ∧
    (split [((0 : Int), 2), ((0 : Int), 3)] 7).length
      = min 7 (elemCount [((0 : Int), 2), ((0 : Int), 3)])) :=
  ⟨by decide, split_correct [((0 : Int), 2), ((0 : Int), 3)] 7 (by decide)⟩

lemma contains_refl (E : Extent) : contains E E = true := by
  induction E with
  | nil => rfl
  | cons p rest ih =>
    obtain ⟨s, n⟩ := p
    rw [contains]
    simp [ih]

lemma contains_trans : ∀ {A B C : Extent},
    contains A B = true → contains B C = true → contains A C = true := by
  intro A
  induction A with
  | nil =>
    intro B C h1 h2
    cases B with
    | nil =>
      cases C with
      | nil => rfl
      | cons q cs => simp [contains] at h2
    | cons q bs => simp [contains] at h1
  | cons p as_ ih =>
    intro B C h1 h2
    obtain ⟨sa, na⟩ := p
    cases B with
    | nil => simp [contains] at h1
    | cons q bs =>
      obtain ⟨sb, nb⟩ := q
      cases C with
      | nil => simp [contains] at h2
      | cons r cs =>
        obtain ⟨sc, nc⟩ := r
        rw [contains] at h1 h2 ⊢
        simp only [Bool.and_eq_true, decide_eq_true_eq] at h1 h2 ⊢
        exact ⟨⟨by omega, by omega⟩, ih h1.2 h2.2⟩

lemma contains_inAxes : ∀ {A B : Extent} {idx : Index},
    contains A B = true → inAxes B idx = true → inAxes A idx = true := by
  intro A
  induction A with
  | nil =>
    intro B idx h1 h2
    cases B with
    | nil =>
      cases idx with
      | nil => rfl
      | cons x xs => simp [inAxes] at h2
    | cons q bs => simp [contains] at h1
  | cons p as_ ih =>
    intro B idx h1 h2
    obtain ⟨sa, na⟩ := p
    cases B with
    | nil => simp [contains] at h1
    | cons q bs =>
      obtain ⟨sb, nb⟩ := q
      cases idx with
      | nil => simp [inAxes] at h2
      | cons x xs =>
        rw [contains] at h1
        rw [inAxes] at h2 ⊢
        simp only [Bool.and_eq_true, decide_eq_true_eq] at h1 h2 ⊢
        exact ⟨⟨by omega, by omega⟩, ih h1.2 h2.2⟩

lemma splitInterval_sub (s : Int) (n k : Nat) :
    ∀ p ∈ splitInterval s n k, s ≤ p.1 ∧ p.1 + (p.2 : Int) ≤ s + (n : Int) := by
  induction k generalizing s n with
  | zero =>
    intro p hp
    simp [splitInterval] at hp
  | succ j ih =>
    intro p hp
    rw [splitInterval] at hp
    have hc : (n + j) / (j + 1) ≤ n := ceil_le_total n j
    rcases List.mem_cons.mp hp with rfl | hp'
    · constructor
      · omega
      · show s + ((n + j) / (j + 1) : Nat) ≤ s + (n : Int)
        omega
    · have hb := ih (s + ((n + j) / (j + 1) : Nat)) (n - (n + j) / (j + 1)) p hp'
      obtain ⟨c, hcdef⟩ : ∃ c, (n + j) / (j + 1) = c := ⟨_, rfl⟩
      rw [hcdef] at hb hc
      constructor
      · omega
      · omega

lemma splitAxes_sub (E : Extent) (k : Nat) :
    ∀ P ∈ splitAxes E k, contains E P = true := by
  induction E generalizing k with
  | nil =>
    intro P hP
    have : P = [] := by
      rw [splitAxes] at hP
      simpa using hP
    rw [this]
    rfl
  | cons p rest ih =>
    obtain ⟨s, n⟩ := p
    intro P hP
    rw [splitAxes] at hP
    by_cases hk : k ≤ n
    · rw [if_pos hk] at hP
      obtain ⟨q, hq, rfl⟩ := List.mem_map.mp hP
      have hsub := splitInterval_sub s n k q hq
      obtain ⟨a, b⟩ := q
      rw [contains]
      simp only [Bool.and_eq_true, decide_eq_true_eq]
      exact ⟨⟨by simpa using hsub.1, by simpa using hsub.2⟩, contains_refl rest⟩
    · rw [if_neg hk] at hP
      obtain ⟨q, hq, hmem⟩ := List.mem_flatMap.mp hP
      obtain ⟨sub, hsub, rfl⟩ := List.mem_map.mp hmem
      obtain ⟨hq1, -⟩ := List.of_mem_zip hq
      rw [mem_idxRange] at hq1
      rw [contains]
      simp only [Bool.and_eq_true, decide_eq_true_eq]
      exact ⟨⟨by omega, by omega⟩, ih q.2 sub hsub⟩

lemma split_sub (E : Extent) (k : Nat) :
    ∀ P ∈ split E k, contains E P = true := by
  intro P hP
  rw [split] at hP
  by_cases h0 : elemCount E = 0
  · rw [if_pos h0] at hP
    simp at hP
  · rw [if_neg h0] at hP
    exact splitAxes_sub E _ P hP

/-- Content invariant of one data object: the pixels are exactly the
row-major materialization of a denotation over the buffered extent. -/
def objInv (f : Index → Int) (o : DataObj) : Prop :=
  o.pixels = (indicesOf o.buffered).map f

/-- Content invariant of a chain suffix, threading the denotation of the
stage input. -/
def chainInv : (Index → Int) → List (PNode × DataObj) → Prop
  | _, [] => True
  | f, q :: rest =>
      objInv (fun idx => q.1.fn (f idx)) q.2 ∧
        chainInv (fun idx => q.1.fn (f idx)) rest

/-- Content invariant of the whole pipeline. -/
def pipeInv (p : Pipeline) : Prop :=
  objInv p.srcFn p.srcOut ∧ chainInv p.srcFn p.chain

/-- Well-formedness: the global clock dominates every modification time. -/
def wfPipe (p : Pipeline) : Prop :=
  p.srcNode.mtime ≤ p.clock ∧ p.srcOut.mtime ≤ p.clock ∧
    ∀ q ∈ p.chain, q.1.mtime ≤ p.clock ∧ q.2.mtime ≤ p.clock

/-- Relation between one stage before and after one phase-3 pass. -/
def stageEvolve (old new : PNode × DataObj) : Prop :=
  new.1.fn = old.1.fn ∧
  new.1.mtime = old.1.mtime ∧
  new.2.whole = old.2.whole ∧
  new.2.requested = old.2.requested ∧
  old.2.mtime ≤ new.2.mtime ∧
  (old.2.mtime < new.2.mtime ↔ new.1.count = old.1.count + 1) ∧
  (¬ old.2.mtime < new.2.mtime →
    new.1.count = old.1.count ∧ new.2.pixels = old.2.pixels ∧
      new.2.buffered = old.2.buffered)

/-- Ordering facts established along the chain by a successful phase 3:
every stage output buffers at least the requested extent and its
modification time dominates both the node and the stage input. -/
def chainPost (R : Extent) : Nat → List (PNode × DataObj) → Prop
  | _, [] => True
  | m, q :: rest =>
      contains q.2.buffered R = true ∧ q.1.mtime ≤ q.2.mtime ∧ m ≤ q.2.mtime ∧
        chainPost R q.2.mtime rest

/-- Externally visible operations of the pipeline for the modification
counter discipline: an update with some requested extent, which may
succeed or fail, and an external change of the source content, which
bumps the source node counter. -/
inductive PipeOp where
  | doUpdate (R : Extent)
  | touchSource (f : Index → Int)

/-- Application of one operation. -/
def applyOp (p : Pipeline) : PipeOp → Pipeline
  | .doUpdate R => (update p R).2
  | .touchSource f =>
      { p with clock := p.clock + 1, srcFn := f,
               srcNode := { p.srcNode with mtime := p.clock + 1 } }

/-- Application of a sequence of operations. -/
def applyOps (p : Pipeline) (ops : List PipeOp) : Pipeline :=
  ops.foldl applyOp p

lemma forall₂_trans_le {α : Type} (m : α → Nat) :
    ∀ {l₁ l₂ l₃ : List α},
      List.Forall₂ (fun a b => m a ≤ m b) l₁ l₂ →
      List.Forall₂ (fun a b => m a ≤ m b) l₂ l₃ →
      List.Forall₂ (fun a b => m a ≤ m b) l₁ l₃ := by
  intro l₁ l₂ l₃ h1 h2
  induction h1 generalizing l₃ with
  | nil =>
    cases h2
    exact List.Forall₂.nil
  | cons hab h ih =>
    cases h2 with
    | cons hbc h' =>
      exact List.Forall₂.cons (le_trans hab hbc) (ih h')

lemma forall₂_right_mem {α β : Type} {R : α → β → Prop} {l₁ : List α} {l₂ : List β}
    (h : List.Forall₂ R l₁ l₂) (P : β → Prop)
    (hP : ∀ a ∈ l₁, ∀ b, R a b → P b) : ∀ b ∈ l₂, P b := by
  induction h with
  | nil => simp
  | cons hab hl ih =>
    intro b hb
    rcases List.mem_cons.mp hb with rfl | hb'
    · exact hP _ (by simp) b hab
    · exact ih (fun a ha c hc => hP a (by simp [ha]) c hc) b hb'

lemma objInv_congr {f g : Index → Int} {o : DataObj}
    (h : objInv f o) (hfg : ∀ idx, f idx = g idx) : objInv g o := by
  rw [objInv, h]
  exact List.map_congr_left (fun idx _ => hfg idx)

lemma objInv_read {f : Index → Int} {o : DataObj} (h : objInv f o)
    {idx : Index} (hidx : inAxes o.buffered idx = true) :
    readAt o idx = f idx := by
  rw [readAt, h]
  exact read_map_offset f hidx

lemma chainInv_congr : ∀ {f g : Index → Int} {chain : List (PNode × DataObj)},
    chainInv f chain → (∀ idx, f idx = g idx) → chainInv g chain := by
  intro f g chain
  induction chain generalizing f g with
  | nil =>
    intro _ _
    trivial
  | cons q rest ih =>
    intro h hfg
    exact ⟨objInv_congr h.1 (fun idx => by rw [hfg idx]),
      ih h.2 (fun idx => by rw [hfg idx])⟩

lemma chainInv_map (g : PNode × DataObj → PNode × DataObj)
    (hg : ∀ q, (g q).1 = q.1 ∧ (g q).2.pixels = q.2.pixels ∧
      (g q).2.buffered = q.2.buffered) :
    ∀ {f : Index → Int} {chain : List (PNode × DataObj)},
      chainInv f chain → chainInv f (chain.map g) := by
  intro f chain
  induction chain generalizing f with
  | nil =>
    intro _
    trivial
  | cons q rest ih =>
    intro h
    rw [List.map_cons, chainInv]
    obtain ⟨hg1, hg2, hg3⟩ := hg q
    constructor
    · show (g q).2.pixels = (indicesOf (g q).2.buffered).map _
      rw [hg2, hg3, hg1]
      exact h.1
    · rw [hg1]
      exact ih h.2

lemma chainInv_final :
    ∀ (chain : List (PNode × DataObj)) (f : Index → Int) (input : DataObj),
      objInv f input → chainInv f chain →
      objInv (fun idx => chain.foldl (fun v q => q.1.fn v) (f idx))
        (chain.foldl (fun _ q => q.2) input) := by
  intro chain
  induction chain with
  | nil =>
    intro f input hin _
    exact hin
  | cons q rest ih =>
    intro f input _ hc
    simp only [List.foldl_cons]
    exact ih (fun idx => q.1.fn (f idx)) q.2 hc.1 hc.2

lemma chainPost_final :
    ∀ (chain : List (PNode × DataObj)) (R : Extent) (m : Nat) (input : DataObj),
      chainPost R m chain → contains input.buffered R = true →
      contains ((chain.foldl (fun _ q => q.2) input)).buffered R = true := by
  intro chain
  induction chain with
  | nil =>
    intro R m input _ hin
    exact hin
  | cons q rest ih =>
    intro R m input hc _
    rw [List.foldl_cons]
    exact ih R q.2.mtime q.2 hc.2.2.2 hc.1

lemma foldl_fn_eq :
    ∀ {c c' : List (PNode × DataObj)},
      List.Forall₂ (fun old new => new.1.fn = old.1.fn) c c' →
      ∀ v, c'.foldl (fun v q => q.1.fn v) v = c.foldl (fun v q => q.1.fn v) v := by
  intro c c' h
  induction h with
  | nil =>
    intro v
    rfl
  | cons hab hl ih =>
    intro v
    rw [List.foldl_cons, List.foldl_cons, hab]
    exact ih _

lemma stepNode_cases (clock : Nat) (input : DataObj) (nd : PNode) (o : DataObj) :
    (stepNode clock input nd o
        = (clock + 1,
           { nd with count := nd.count + 1 },
           { o with buffered := o.requested,
                    pixels := (indicesOf o.requested).map
                      (fun idx => nd.fn (readAt input idx)),
                    mtime := clock + 1 })
      ∧ (o.mtime < nd.mtime ∨ o.mtime < input.mtime
          ∨ ¬ contains o.buffered o.requested = true))
    ∨ (stepNode clock input nd o = (clock, nd, o)
      ∧ nd.mtime ≤ o.mtime ∧ input.mtime ≤ o.mtime
      ∧ contains o.buffered o.requested = true) := by
  rw [stepNode]
  by_cases h : (nd.mtime > o.mtime || input.mtime > o.mtime
      || !(contains o.buffered o.requested)) = true
  · left
    rw [if_pos h]
    simp only [Bool.or_eq_true, decide_eq_true_eq, Bool.not_eq_eq_eq_not,
      Bool.not_true, gt_iff_lt] at h
    refine ⟨rfl, ?_⟩
    rcases h with (h | h) | h
    · exact Or.inl h
    · exact Or.inr (Or.inl h)
    · exact Or.inr (Or.inr (by simp [h]))
  · right
    rw [if_neg h]
    simp only [Bool.or_eq_true, decide_eq_true_eq, Bool.not_eq_eq_eq_not,
      Bool.not_true, gt_iff_lt, not_or] at h
    refine ⟨rfl, by omega, by omega, ?_⟩
    have := h.2
    simp only [Bool.not_eq_true'] at this
    simp [this]

lemma runChain_cons (clock : Nat) (input : DataObj) (nd : PNode) (o : DataObj)
    (rest : List (PNode × DataObj)) (c' : Nat) (nd' : PNode) (o' : DataObj)
    (h : stepNode clock input nd o = (c', nd', o')) :
    runChain clock input ((nd, o) :: rest)
      = ((runChain c' o' rest).1, (nd', o') :: (runChain c' o' rest).2) := by
  rw [runChain, h]

lemma runChain_evolve :
    ∀ (chain : List (PNode × DataObj)) (clock : Nat) (input : DataObj),
      input.mtime ≤ clock →
      (∀ q ∈ chain, q.1.mtime ≤ clock ∧ q.2.mtime ≤ clock) →
      clock ≤ (runChain clock input chain).1 ∧
      List.Forall₂ stageEvolve chain (runChain clock input chain).2 ∧
      (∀ q ∈ (runChain clock input chain).2,
        q.1.mtime ≤ (runChain clock input chain).1 ∧
        q.2.mtime ≤ (runChain clock input chain).1) := by
  intro chain
  induction chain with
  | nil =>
    intro clock input _ _
    exact ⟨le_refl _, List.Forall₂.nil, by simp [runChain]⟩
  | cons q rest ih =>
    obtain ⟨nd, o⟩ := q
    intro clock input hin hb
    have hbnd := hb (nd, o) (by simp)
    have hnd1 : nd.mtime ≤ clock := hbnd.1
    have hnd2 : o.mtime ≤ clock := hbnd.2
    have hbrest : ∀ q ∈ rest, q.1.mtime ≤ clock ∧ q.2.mtime ≤ clock :=
      fun q hq => hb q (by simp [hq])
    rcases stepNode_cases clock input nd o with ⟨heq, -⟩ | ⟨heq, h1, h2, h3⟩
    · rw [runChain_cons clock input nd o rest _ _ _ heq]
      have ihres := ih (clock + 1)
        { o with buffered := o.requested,
                 pixels := (indicesOf o.requested).map
                   (fun idx => nd.fn (readAt input idx)),
                 mtime := clock + 1 }
        (by simp) (fun q hq => ⟨(hbrest q hq).1.trans (by omega),
          (hbrest q hq).2.trans (by omega)⟩)
      refine ⟨by omega, ?_, ?_⟩
      · refine List.Forall₂.cons ?_ ihres.2.1
        refine ⟨rfl, rfl, rfl, rfl, by simp; omega, ?_, ?_⟩
        · constructor
          · intro _
            rfl
          · intro _
            show o.mtime < clock + 1
            omega
        · intro hc
          exact absurd (show o.mtime < clock + 1 by omega) hc
      · intro q hq
        rcases List.mem_cons.mp hq with rfl | hq'
        · exact ⟨hnd1.trans (by omega), by simpa using ihres.1⟩
        · exact ihres.2.2 q hq'
    · rw [runChain_cons clock input nd o rest _ _ _ heq]
      have ihres := ih clock o hnd2 hbrest
      refine ⟨ihres.1, ?_, ?_⟩
      · refine List.Forall₂.cons ?_ ihres.2.1
        refine ⟨rfl, rfl, rfl, rfl, le_refl _, ?_, fun _ => ⟨rfl, rfl, rfl⟩⟩
        constructor
        · intro hlt
          omega
        · intro hc
          omega
      · intro q hq
        rcases List.mem_cons.mp hq with rfl | hq'
        · exact ⟨hnd1.trans ihres.1, hnd2.trans ihres.1⟩
        · exact ihres.2.2 q hq'

lemma runChain_post :
    ∀ (chain : List (PNode × DataObj)) (clock : Nat) (input : DataObj) (R : Extent),
      (∀ q ∈ chain, q.2.requested = R) →
      input.mtime ≤ clock →
      (∀ q ∈ chain, q.1.mtime ≤ clock ∧ q.2.mtime ≤ clock) →
      contains input.buffered R = true →
      chainPost R input.mtime (runChain clock input chain).2 := by
  intro chain
  induction chain with
  | nil =>
    intro clock input R _ _ _ _
    simp [runChain, chainPost]
  | cons q rest ih =>
    obtain ⟨nd, o⟩ := q
    intro clock input R hreq hin hb hInC
    have hbnd := hb (nd, o) (by simp)
    have hnd1 : nd.mtime ≤ clock := hbnd.1
    have hnd2 : o.mtime ≤ clock := hbnd.2
    have hbrest : ∀ q ∈ rest, q.1.mtime ≤ clock ∧ q.2.mtime ≤ clock :=
      fun q hq => hb q (by simp [hq])
    have hreqo : o.requested = R := hreq (nd, o) (by simp)
    have hreqrest : ∀ q ∈ rest, q.2.requested = R :=
      fun q hq => hreq q (by simp [hq])
    rcases stepNode_cases clock input nd o with ⟨heq, -⟩ | ⟨heq, h1, h2, h3⟩
    · rw [runChain_cons clock input nd o rest _ _ _ heq]
      rw [chainPost]
      refine ⟨?_, ?_, ?_, ?_⟩
      · show contains o.requested R = true
        rw [hreqo]
        exact contains_refl R
      · show nd.mtime ≤ clock + 1
        omega
      · show input.mtime ≤ clock + 1
        omega
      · have := ih (clock + 1)
          { o with buffered := o.requested,
                   pixels := (indicesOf o.requested).map
                     (fun idx => nd.fn (readAt input idx)),
                   mtime := clock + 1 }
          R hreqrest (by simp)
          (fun q hq => ⟨(hbrest q hq).1.trans (by omega),
            (hbrest q hq).2.trans (by omega)⟩)
          (by show contains o.requested R = true
              rw [hreqo]
              exact contains_refl R)
        simpa using this
    · rw [runChain_cons clock input nd o rest _ _ _ heq]
      rw [chainPost]
      have hcont : contains o.buffered R = true := by
        rw [hreqo] at h3
        exact h3
      exact ⟨hcont, h1, h2, ih clock o R hreqrest hnd2 hbrest hcont⟩

lemma runChain_inv :
    ∀ (chain : List (PNode × DataObj)) (clock : Nat) (input : DataObj)
      (R : Extent) (f : Index → Int),
      (∀ q ∈ chain, q.2.requested = R) →
      contains input.buffered R = true →
      objInv f input →
      chainInv f chain →
      chainInv f (runChain clock input chain).2 := by
  intro chain
  induction chain with
  | nil =>
    intro clock input R f _ _ _ _
    simp [runChain, chainInv]
  | cons q rest ih =>
    obtain ⟨nd, o⟩ := q
    intro clock input R f hreq hInC hobj hc
    have hreqo : o.requested = R := hreq (nd, o) (by simp)
    have hreqrest : ∀ q ∈ rest, q.2.requested = R :=
      fun q hq => hreq q (by simp [hq])
    rcases stepNode_cases clock input nd o with ⟨heq, -⟩ | ⟨heq, h1, h2, h3⟩
    · rw [runChain_cons clock input nd o rest _ _ _ heq]
      rw [chainInv]
      have hnew : objInv (fun idx => nd.fn (f idx))
          { o with buffered := o.requested,
                   pixels := (indicesOf o.requested).map
                     (fun idx => nd.fn (readAt input idx)),
                   mtime := clock + 1 } := by
        show (indicesOf o.requested).map (fun idx => nd.fn (readAt input idx))
          = (indicesOf o.requested).map (fun idx => nd.fn (f idx))
        apply List.map_congr_left
        intro idx hidx
        rw [objInv_read hobj]
        rw [hreqo] at hidx
        exact contains_inAxes hInC (mem_indicesOf.mp hidx)
      refine ⟨hnew, ?_⟩
      refine ih (clock + 1) _ R (fun idx => nd.fn (f idx)) hreqrest ?_ hnew hc.2
      show contains o.requested R = true
      rw [hreqo]
      exact contains_refl R
    · rw [runChain_cons clock input nd o rest _ _ _ heq]
      rw [chainInv]
      refine ⟨hc.1, ?_⟩
      refine ih clock o R (fun idx => nd.fn (f idx)) hreqrest ?_ hc.1 hc.2
      rw [hreqo] at h3
      exact h3

lemma runChain_skip :
    ∀ (chain : List (PNode × DataObj)) (clock : Nat) (input : DataObj) (R : Extent),
      (∀ q ∈ chain, q.2.requested = R) →
      chainPost R input.mtime chain →
      runChain clock input chain = (clock, chain) := by
  intro chain
  induction chain with
  | nil =>
    intro clock input R _ _
    rfl
  | cons q rest ih =>
    obtain ⟨nd, o⟩ := q
    intro clock input R hreq hpost
    rw [chainPost] at hpost
    obtain ⟨hc1, hc2, hc3, hc4⟩ := hpost
    have hc2r : nd.mtime ≤ o.mtime := hc2
    have hc3r : input.mtime ≤ o.mtime := hc3
    have hc1r : contains o.buffered R = true := hc1
    have hreqo : o.requested = R := hreq (nd, o) (by simp)
    rcases stepNode_cases clock input nd o with ⟨-, hcond⟩ | ⟨heq, -, -, -⟩
    · exfalso
      rcases hcond with h | h | h
      · omega
      · omega
      · rw [hreqo] at h
        exact h hc1r
    · rw [runChain_cons clock input nd o rest _ _ _ heq]
      rw [ih clock o R (fun q hq => hreq q (by simp [hq])) hc4]

/-- The source output object after the metadata and request phases. -/
def updSrcObj (p : Pipeline) (R : Extent) : DataObj :=
  { p.srcOut with whole := p.srcWhole, requested := R }

/-- The chain after the metadata and request phases. -/
def updChain0 (p : Pipeline) (R : Extent) : List (PNode × DataObj) :=
  p.chain.map (fun q => (q.1, { q.2 with whole := p.srcWhole, requested := R }))

lemma update_eq_pos (p : Pipeline) (R : Extent) (hok : contains p.srcWhole R = true) :
    update p R = (.ok (),
      { clock := (runChain (stepSrc p.clock p.srcFn p.srcNode (updSrcObj p R)).1
                    (stepSrc p.clock p.srcFn p.srcNode (updSrcObj p R)).2.2
                    (updChain0 p R)).1,
        srcFn := p.srcFn,
        srcWhole := p.srcWhole,
        srcNode := (stepSrc p.clock p.srcFn p.srcNode (updSrcObj p R)).2.1,
        srcOut := (stepSrc p.clock p.srcFn p.srcNode (updSrcObj p R)).2.2,
        chain := (runChain (stepSrc p.clock p.srcFn p.srcNode (updSrcObj p R)).1
                    (stepSrc p.clock p.srcFn p.srcNode (updSrcObj p R)).2.2
                    (updChain0 p R)).2 }) := by
  have hchain : (setRequested (phase1 p) R).chain = updChain0 p R := by
    show ((p.chain.map _).map _) = _
    rw [List.map_map]
    rfl
  rw [update, if_pos hok]
  rw [show setRequested (phase1 p) R
      = { clock := p.clock, srcFn := p.srcFn, srcWhole := p.srcWhole,
          srcNode := p.srcNode, srcOut := updSrcObj p R,
          chain := updChain0 p R } from by
    rw [setRequested, phase1]
    congr 1]

lemma update_eq_neg (p : Pipeline) (R : Extent)
    (hbad : contains p.srcWhole R = false) :
    update p R = (.error .regionOutOfBounds,
      { clock := p.clock, srcFn := p.srcFn, srcWhole := p.srcWhole,
        srcNode := p.srcNode, srcOut := updSrcObj p R,
        chain := updChain0 p R }) := by
  rw [update, if_neg (by rw [hbad]; simp)]
  rw [show setRequested (phase1 p) R
      = { clock := p.clock, srcFn := p.srcFn, srcWhole := p.srcWhole,
          srcNode := p.srcNode, srcOut := updSrcObj p R,
          chain := updChain0 p R } from by
    rw [setRequested, phase1]
    congr 1
    show (p.chain.map _).map _ = updChain0 p R
    rw [List.map_map]
    rfl]

lemma stepSrc_cases (clock : Nat) (f : Index → Int) (nd : PNode) (o : DataObj) :
    (stepSrc clock f nd o
        = (clock + 1,
           { nd with count := nd.count + 1 },
           { o with buffered := o.requested,
                    pixels := (indicesOf o.requested).map f,
                    mtime := clock + 1 })
      ∧ (o.mtime < nd.mtime ∨ ¬ contains o.buffered o.requested = true))
    ∨ (stepSrc clock f nd o = (clock, nd, o)
      ∧ nd.mtime ≤ o.mtime ∧ contains o.buffered o.requested = true) := by
  rw [stepSrc]
  by_cases h : (nd.mtime > o.mtime || !(contains o.buffered o.requested)) = true
  · left
    rw [if_pos h]
    simp only [Bool.or_eq_true, decide_eq_true_eq, Bool.not_eq_eq_eq_not,
      Bool.not_true, gt_iff_lt] at h
    refine ⟨rfl, ?_⟩
    rcases h with h | h
    · exact Or.inl h
    · exact Or.inr (by simp [h])
  · right
    rw [if_neg h]
    simp only [Bool.or_eq_true, decide_eq_true_eq, Bool.not_eq_eq_eq_not,
      Bool.not_true, gt_iff_lt, not_or] at h
    refine ⟨rfl, by omega, ?_⟩
    have := h.2
    simp only [Bool.not_eq_true'] at this
    simp [this]

lemma update_facts (p : Pipeline) (R : Extent)
    (hok : contains p.srcWhole R = true) (hwf : wfPipe p) :
    (update p R).1 = .ok () ∧
    wfPipe (update p R).2 ∧
    (update p R).2.srcFn = p.srcFn ∧
    (update p R).2.srcWhole = p.srcWhole ∧
    (update p R).2.srcNode.fn = p.srcNode.fn ∧
    (update p R).2.srcNode.mtime = p.srcNode.mtime ∧
    p.srcOut.mtime ≤ (update p R).2.srcOut.mtime ∧
    ((p.srcOut.mtime < (update p R).2.srcOut.mtime) ↔
      (update p R).2.srcNode.count = p.srcNode.count + 1) ∧
    (¬ p.srcOut.mtime < (update p R).2.srcOut.mtime →
      (update p R).2.srcNode.count = p.srcNode.count ∧
      (update p R).2.srcOut.pixels = p.srcOut.pixels ∧
      (update p R).2.srcOut.buffered = p.srcOut.buffered) ∧
    List.Forall₂
      (fun old new => new.1.fn = old.1.fn ∧ new.1.mtime = old.1.mtime ∧
        old.2.mtime ≤ new.2.mtime ∧
        ((old.2.mtime < new.2.mtime) ↔ new.1.count = old.1.count + 1) ∧
        (¬ old.2.mtime < new.2.mtime →
          new.1.count = old.1.count ∧ new.2.pixels = old.2.pixels ∧
            new.2.buffered = old.2.buffered))
      p.chain (update p R).2.chain ∧
    (update p R).2.srcOut.requested = R ∧
    (∀ q ∈ (update p R).2.chain, q.2.requested = R) ∧
    (update p R).2.srcOut.whole = p.srcWhole ∧
    (∀ q ∈ (update p R).2.chain, q.2.whole = p.srcWhole) ∧
    contains (update p R).2.srcOut.buffered R = true ∧
    (update p R).2.srcNode.mtime ≤ (update p R).2.srcOut.mtime ∧
    chainPost R (update p R).2.srcOut.mtime (update p R).2.chain := by
  obtain ⟨hw1, hw2, hw3⟩ := hwf
  have hb0 : ∀ q ∈ updChain0 p R, q.1.mtime ≤ p.clock ∧ q.2.mtime ≤ p.clock := by
    intro q hq
    rw [updChain0] at hq
    obtain ⟨q0, hq0, rfl⟩ := List.mem_map.mp hq
    exact hw3 q0 hq0
  have hreq0 : ∀ q ∈ updChain0 p R, q.2.requested = R := by
    intro q hq
    rw [updChain0] at hq
    obtain ⟨q0, hq0, rfl⟩ := List.mem_map.mp hq
    rfl
  have hwhole0 : ∀ q ∈ updChain0 p R, q.2.whole = p.srcWhole := by
    intro q hq
    rw [updChain0] at hq
    obtain ⟨q0, hq0, rfl⟩ := List.mem_map.mp hq
    rfl
  rw [update_eq_pos p R hok]
  rcases stepSrc_cases p.clock p.srcFn p.srcNode (updSrcObj p R) with
    ⟨heqS, -⟩ | ⟨heqS, hs1, hs2⟩
  · rw [heqS]
    have hin1 : ({ updSrcObj p R with
        buffered := (updSrcObj p R).requested,
        pixels := (indicesOf (updSrcObj p R).requested).map p.srcFn,
        mtime := p.clock + 1 } : DataObj).mtime ≤ p.clock + 1 := le_refl _
    have hrcE := runChain_evolve (updChain0 p R) (p.clock + 1) _ hin1
      (fun q hq => ⟨(hb0 q hq).1.trans (by omega), (hb0 q hq).2.trans (by omega)⟩)
    have hrcP := runChain_post (updChain0 p R) (p.clock + 1) _ R hreq0 hin1
      (fun q hq => ⟨(hb0 q hq).1.trans (by omega), (hb0 q hq).2.trans (by omega)⟩)
      (by show contains R R = true
          exact contains_refl R)
    refine ⟨rfl, ⟨?_, ?_, ?_⟩, rfl, rfl, rfl, rfl, ?_, ?_, ?_, ?_, rfl, ?_, rfl,
      ?_, ?_, ?_, ?_⟩
    · show p.srcNode.mtime ≤ _
      exact hw1.trans ((by omega : p.clock ≤ p.clock + 1).trans hrcE.1)
    · show p.clock + 1 ≤ _
      exact hrcE.1
    · exact hrcE.2.2
    · show p.srcOut.mtime ≤ p.clock + 1
      omega
    · constructor
      · intro _
        rfl
      · intro _
        show p.srcOut.mtime < p.clock + 1
        omega
    · intro hc
      exact absurd (show p.srcOut.mtime < p.clock + 1 by omega) hc
    · have h1 := List.forall₂_map_left_iff.mp
        (show List.Forall₂ stageEvolve
          (p.chain.map (fun q => (q.1, { q.2 with whole := p.srcWhole, requested := R })))
          _ from hrcE.2.1)
      refine h1.imp ?_
      intro a b hab
      exact ⟨hab.1, hab.2.1, hab.2.2.2.2.1, hab.2.2.2.2.2.1, hab.2.2.2.2.2.2⟩
    · exact forall₂_right_mem hrcE.2.1 _
        (fun a ha b hab => by rw [hab.2.2.2.1]; exact hreq0 a ha)
    · exact forall₂_right_mem hrcE.2.1 _
        (fun a ha b hab => by rw [hab.2.2.1]; exact hwhole0 a ha)
    · show contains R R = true
      exact contains_refl R
    · show p.srcNode.mtime ≤ p.clock + 1
      omega
    · exact hrcP
  · rw [heqS]
    have hs1r : p.srcNode.mtime ≤ p.srcOut.mtime := hs1
    have hs2r : contains p.srcOut.buffered R = true := hs2
    have hin1 : (updSrcObj p R).mtime ≤ p.clock := hw2
    have hrcE := runChain_evolve (updChain0 p R) p.clock _ hin1 hb0
    have hrcP := runChain_post (updChain0 p R) p.clock _ R hreq0 hin1 hb0 hs2r
    refine ⟨rfl, ⟨?_, ?_, ?_⟩, rfl, rfl, rfl, rfl, ?_, ?_, ?_, ?_, rfl, ?_, rfl,
      ?_, ?_, ?_, ?_⟩
    · show p.srcNode.mtime ≤ _
      exact hw1.trans hrcE.1
    · show p.srcOut.mtime ≤ _
      exact hw2.trans hrcE.1
    · exact hrcE.2.2
    · show p.srcOut.mtime ≤ p.srcOut.mtime
      exact le_refl _
    · constructor
      · intro hlt
        exact absurd (show p.srcOut.mtime < p.srcOut.mtime from hlt) (by omega)
      · intro hc
        have : p.srcNode.count = p.srcNode.count + 1 := hc
        omega
    · intro _
      exact ⟨rfl, rfl, rfl⟩
    · have h1 := List.forall₂_map_left_iff.mp
        (show List.Forall₂ stageEvolve
          (p.chain.map (fun q => (q.1, { q.2 with whole := p.srcWhole, requested := R })))
          _ from hrcE.2.1)
      refine h1.imp ?_
      intro a b hab
      exact ⟨hab.1, hab.2.1, hab.2.2.2.2.1, hab.2.2.2.2.2.1, hab.2.2.2.2.2.2⟩
    · exact forall₂_right_mem hrcE.2.1 _
        (fun a ha b hab => by rw [hab.2.2.2.1]; exact hreq0 a ha)
    · exact forall₂_right_mem hrcE.2.1 _
        (fun a ha b hab => by rw [hab.2.2.1]; exact hwhole0 a ha)
    · exact hs2r
    · exact hs1r
    · exact hrcP

lemma update_inv (p : Pipeline) (R : Extent)
    (hok : contains p.srcWhole R = true) (hwf : wfPipe p) (hinv : pipeInv p) :
    pipeInv (update p R).2 ∧
    objInv (denote p) (finalOut (update p R).2) ∧
    contains (finalOut (update p R).2).buffered R = true := by
  obtain ⟨hw1, hw2, hw3⟩ := hwf
  obtain ⟨hsrcI, hchainI⟩ := hinv
  have hchain0 : chainInv p.srcFn (updChain0 p R) := by
    rw [updChain0]
    exact chainInv_map (fun q => (q.1, { q.2 with whole := p.srcWhole, requested := R }))
      (fun q => ⟨rfl, rfl, rfl⟩) hchainI
  have hreq0 : ∀ q ∈ updChain0 p R, q.2.requested = R := by
    intro q hq
    rw [updChain0] at hq
    obtain ⟨q0, hq0, rfl⟩ := List.mem_map.mp hq
    rfl
  have hb0 : ∀ q ∈ updChain0 p R, q.1.mtime ≤ p.clock ∧ q.2.mtime ≤ p.clock := by
    intro q hq
    rw [updChain0] at hq
    obtain ⟨q0, hq0, rfl⟩ := List.mem_map.mp hq
    exact hw3 q0 hq0
  rw [update_eq_pos p R hok]
  rcases stepSrc_cases p.clock p.srcFn p.srcNode (updSrcObj p R) with
    ⟨heqS, -⟩ | ⟨heqS, hs1, hs2⟩
  · rw [heqS]
    have hin1 : ({ updSrcObj p R with
        buffered := (updSrcObj p R).requested,
        pixels := (indicesOf (updSrcObj p R).requested).map p.srcFn,
        mtime := p.clock + 1 } : DataObj).mtime ≤ p.clock + 1 := le_refl _
    have hobjS : objInv p.srcFn
        { updSrcObj p R with
          buffered := (updSrcObj p R).requested,
          pixels := (indicesOf (updSrcObj p R).requested).map p.srcFn,
          mtime := p.clock + 1 } := rfl
    have hcontS : contains ({ updSrcObj p R with
        buffered := (updSrcObj p R).requested,
        pixels := (indicesOf (updSrcObj p R).requested).map p.srcFn,
        mtime := p.clock + 1 } : DataObj).buffered R = true := by
      show contains R R = true
      exact contains_refl R
    have hrcI := runChain_inv (updChain0 p R) (p.clock + 1) _ R p.srcFn
      hreq0 hcontS hobjS hchain0
    have hrcE := runChain_evolve (updChain0 p R) (p.clock + 1) _ hin1
      (fun q hq => ⟨(hb0 q hq).1.trans (by omega), (hb0 q hq).2.trans (by omega)⟩)
    have hrcP := runChain_post (updChain0 p R) (p.clock + 1) _ R hreq0 hin1
      (fun q hq => ⟨(hb0 q hq).1.trans (by omega), (hb0 q hq).2.trans (by omega)⟩)
      hcontS
    have hfns : List.Forall₂ (fun old new => new.1.fn = old.1.fn) p.chain
        (runChain (p.clock + 1)
          { updSrcObj p R with
            buffered := (updSrcObj p R).requested,
            pixels := (indicesOf (updSrcObj p R).requested).map p.srcFn,
            mtime := p.clock + 1 }
          (updChain0 p R)).2 := by
      have h1 := List.forall₂_map_left_iff.mp
        (show List.Forall₂ stageEvolve
          (p.chain.map (fun q => (q.1, { q.2 with whole := p.srcWhole, requested := R })))
          _ from hrcE.2.1)
      exact h1.imp (fun a b hab => hab.1)
    refine ⟨⟨hobjS, hrcI⟩, ?_, ?_⟩
    · have hfin := chainInv_final _ p.srcFn _ hobjS hrcI
      refine objInv_congr hfin ?_
      intro idx
      rw [denote]
      exact foldl_fn_eq hfns (p.srcFn idx)
    · exact chainPost_final _ R _ _ hrcP hcontS
  · rw [heqS]
    have hs2r : contains (updSrcObj p R).buffered R = true := hs2
    have hobjS : objInv p.srcFn (updSrcObj p R) := hsrcI
    have hin1 : (updSrcObj p R).mtime ≤ p.clock := hw2
    have hrcI := runChain_inv (updChain0 p R) p.clock _ R p.srcFn
      hreq0 hs2r hobjS hchain0
    have hrcE := runChain_evolve (updChain0 p R) p.clock _ hin1 hb0
    have hrcP := runChain_post (updChain0 p R) p.clock _ R hreq0 hin1 hb0 hs2r
    have hfns : List.Forall₂ (fun old new => new.1.fn = old.1.fn) p.chain
        (runChain p.clock (updSrcObj p R) (updChain0 p R)).2 := by
      have h1 := List.forall₂_map_left_iff.mp
        (show List.Forall₂ stageEvolve
          (p.chain.map (fun q => (q.1, { q.2 with whole := p.srcWhole, requested := R })))
          _ from hrcE.2.1)
      exact h1.imp (fun a b hab => hab.1)
    refine ⟨⟨hobjS, hrcI⟩, ?_, ?_⟩
    · have hfin := chainInv_final _ p.srcFn _ hobjS hrcI
      refine objInv_congr hfin ?_
      intro idx
      rw [denote]
      exact foldl_fn_eq hfns (p.srcFn idx)
    · exact chainPost_final _ R _ _ hrcP hs2r

lemma stream_pieces :
    ∀ (pieces : List Extent) (q : Pipeline) (acc : List Int),
      wfPipe q → pipeInv q →
      (∀ P ∈ pieces, contains q.srcWhole P = true) →
      (pieces.foldl
        (fun acc piece =>
          let r := update acc.1 piece
          (r.2, acc.2 ++ readRegion (finalOut r.2) piece))
        (q, acc)).2
      = acc ++ pieces.flatMap (fun P => (indicesOf P).map (denote q)) := by
  intro pieces
  induction pieces with
  | nil =>
    intro q acc _ _ _
    simp
  | cons P pieces ih =>
    intro q acc hwf hinv hcont
    rw [List.foldl_cons, List.flatMap_cons]
    have hokP := hcont P (by simp)
    have hF := update_facts q P hokP hwf
    have hI := update_inv q P hokP hwf hinv
    have hread : readRegion (finalOut (update q P).2) P
        = (indicesOf P).map (denote q) := by
      rw [readRegion]
      apply List.map_congr_left
      intro idx hidx
      exact objInv_read hI.2.1 (contains_inAxes hI.2.2 (mem_indicesOf.mp hidx))
    have hcont' : ∀ Q ∈ pieces, contains (update q P).2.srcWhole Q = true := by
      intro Q hQ
      rw [hF.2.2.2.1]
      exact hcont Q (by simp [hQ])
    have hdenote : ∀ idx, denote (update q P).2 idx = denote q idx := by
      intro idx
      have hfns : List.Forall₂ (fun old new => new.1.fn = old.1.fn) q.chain
          (update q P).2.chain :=
        (hF.2.2.2.2.2.2.2.2.2.1).imp (fun a b hab => hab.1)
      rw [denote, denote, hF.2.2.1]
      exact foldl_fn_eq hfns (q.srcFn idx)
    rw [ih (update q P).2 (acc ++ readRegion (finalOut (update q P).2) P)
      hF.2.1 hI.1 hcont']
    rw [hread, List.append_assoc]
    congr 1
    congr 1
    exact flatMap_congr
      (fun Q _ => List.map_congr_left (fun idx _ => hdenote idx))

lemma update_fixpoint (p : Pipeline) (R : Extent)
    (hok : contains p.srcWhole R = true)
    (hwhole1 : p.srcOut.whole = p.srcWhole)
    (hwhole2 : ∀ q ∈ p.chain, q.2.whole = p.srcWhole)
    (hreq1 : p.srcOut.requested = R)
    (hreq2 : ∀ q ∈ p.chain, q.2.requested = R)
    (hcb : contains p.srcOut.buffered R = true)
    (hnm : p.srcNode.mtime ≤ p.srcOut.mtime)
    (hcp : chainPost R p.srcOut.mtime p.chain) :
    update p R = (.ok (), p) := by
  have hso : updSrcObj p R = p.srcOut := by
    rw [updSrcObj, ← hwhole1, ← hreq1]
  have hch : updChain0 p R = p.chain := by
    rw [updChain0]
    have hpt : ∀ q ∈ p.chain,
        (q.1, { q.2 with whole := p.srcWhole, requested := R }) = q := by
      intro q hq
      rw [← hwhole2 q hq, ← hreq2 q hq]
    rw [List.map_congr_left hpt, List.map_id']
  rw [update_eq_pos p R hok, hso, hch]
  rcases stepSrc_cases p.clock p.srcFn p.srcNode p.srcOut with
    ⟨-, hcond⟩ | ⟨heqS, -, -⟩
  · exfalso
    rcases hcond with h | h
    · omega
    · rw [hreq1] at h
      exact h hcb
  · rw [heqS]
    rw [runChain_skip p.chain p.clock p.srcOut R hreq2 hcp]

lemma applyOp_facts (p : Pipeline) (op : PipeOp) (hwf : wfPipe p) :
    wfPipe (applyOp p op) ∧
    p.srcOut.mtime ≤ (applyOp p op).srcOut.mtime ∧
    ((p.srcOut.mtime < (applyOp p op).srcOut.mtime) ↔
      (applyOp p op).srcNode.count = p.srcNode.count + 1) ∧
    List.Forall₂
      (fun old new => old.2.mtime ≤ new.2.mtime ∧
        ((old.2.mtime < new.2.mtime) ↔ new.1.count = old.1.count + 1))
      p.chain (applyOp p op).chain := by
  cases op with
  | doUpdate R =>
    simp only [applyOp]
    by_cases hok : contains p.srcWhole R = true
    · have hF := update_facts p R hok hwf
      refine ⟨hF.2.1, hF.2.2.2.2.2.2.1, hF.2.2.2.2.2.2.2.1, ?_⟩
      exact (hF.2.2.2.2.2.2.2.2.2.1).imp
        (fun a b hab => ⟨hab.2.2.1, hab.2.2.2.1⟩)
    · have hbad : contains p.srcWhole R = false := by
        cases hc : contains p.srcWhole R
        · rfl
        · exact absurd hc hok
      rw [update_eq_neg p R hbad]
      obtain ⟨hw1, hw2, hw3⟩ := hwf
      refine ⟨⟨hw1, hw2, ?_⟩, ?_, ?_, ?_⟩
      · intro q hq
        have hq' : q ∈ updChain0 p R := hq
        rw [updChain0] at hq'
        obtain ⟨q0, hq0, rfl⟩ := List.mem_map.mp hq'
        exact hw3 q0 hq0
      · show p.srcOut.mtime ≤ p.srcOut.mtime
        exact le_refl _
      · constructor
        · intro hlt
          exact absurd (show p.srcOut.mtime < p.srcOut.mtime from hlt) (by omega)
        · intro hc
          have : p.srcNode.count = p.srcNode.count + 1 := hc
          omega
      · show List.Forall₂ _ p.chain (updChain0 p R)
        rw [updChain0]
        rw [List.forall₂_map_right_iff]
        rw [List.forall₂_same]
        intro q hq
        constructor
        · show q.2.mtime ≤ q.2.mtime
          exact le_refl _
        · constructor
          · intro hlt
            have hx : q.2.mtime < q.2.mtime := hlt
            omega
          · intro hc
            have hx : q.1.count = q.1.count + 1 := hc
            omega
  | touchSource f =>
    obtain ⟨hw1, hw2, hw3⟩ := hwf
    simp only [applyOp]
    refine ⟨⟨by show p.clock + 1 ≤ p.clock + 1; omega,
             by show p.srcOut.mtime ≤ p.clock + 1; omega,
             fun q hq => ⟨(hw3 q hq).1.trans (show p.clock ≤ p.clock + 1 by omega),
               (hw3 q hq).2.trans (show p.clock ≤ p.clock + 1 by omega)⟩⟩,
      le_refl _, ?_, ?_⟩
    · constructor
      · intro hlt
        exact absurd hlt (by omega)
      · intro hc
        have : p.srcNode.count = p.srcNode.count + 1 := hc
        omega
    · rw [List.forall₂_same]
      intro q hq
      refine ⟨le_refl _, ?_⟩
      constructor
      · intro hlt
        omega
      · intro hc
        have : q.1.count = q.1.count + 1 := hc
        omega

lemma applyOps_mono :
    ∀ (ops : List PipeOp) (p : Pipeline), wfPipe p →
      p.srcOut.mtime ≤ (applyOps p ops).srcOut.mtime ∧
      List.Forall₂ (fun old new => old.2.mtime ≤ new.2.mtime)
        p.chain (applyOps p ops).chain ∧
      wfPipe (applyOps p ops) := by
  intro ops
  induction ops with
  | nil =>
    intro p hwf
    refine ⟨le_refl _, ?_, hwf⟩
    show List.Forall₂ _ p.chain p.chain
    rw [List.forall₂_same]
    intro q _
    exact le_refl _
  | cons op ops ih =>
    intro p hwf
    have h1 := applyOp_facts p op hwf
    have h2 := ih (applyOp p op) h1.1
    refine ⟨h1.2.1.trans h2.1, ?_, h2.2.2⟩
    exact forall₂_trans_le (fun q => q.2.mtime)
      (h1.2.2.2.imp (fun a b hab => hab.1)) h2.2.1

/-- C1: streaming equivalence. For a fixed pipeline and final extent,
consuming the output in k sequential pieces, each piece set as the
terminal requested extent, updated and consumed before the next, yields
on concatenation exactly the result of computing the whole extent in one
pass, for every piece count k ≥ 1. -/
theorem streaming_equivalence (p : Pipeline) (R : Extent) (k : Nat)
    (hk : 1 ≤ k) (hok : contains p.srcWhole R = true)
    (hwf : wfPipe p) (hinv : pipeInv p) :
    (streamUpdate p R k).2 = readRegion (finalOut (update p R).2) R := by
  have hpieces : ∀ P ∈ split R k, contains p.srcWhole P = true :=
    fun P hP => contains_trans hok (split_sub R k P hP)
  have hL := stream_pieces (split R k) p [] hwf hinv hpieces
  have hLHS : (streamUpdate p R k).2
      = [] ++ (split R k).flatMap (fun P => (indicesOf P).map (denote p)) := hL
  rw [hLHS, List.nil_append]
  rw [(List.map_flatMap (denote p) indicesOf (split R k)).symm]
  rw [split_flatMap R k hk]
  have hI := update_inv p R hok hwf hinv
  rw [readRegion]
  refine (List.map_congr_left ?_).symm
  intro idx hidx
  exact objInv_read hI.2.1 (contains_inAxes hI.2.2 (mem_indicesOf.mp hidx))

/-- C4: a node is recomputed exactly when its own modification time
exceeds the output modification time, or the input modification time is
newer than the output one, or the output buffered extent does not contain
the requested extent; consequently a second update with the same
requested extent and no intervening change is a complete no-op: the state
is unchanged and no computation counter advances. -/
theorem update_idempotent (p : Pipeline) (R : Extent)
    (hok : contains p.srcWhole R = true) (hwf : wfPipe p) :
    (∀ (clock : Nat) (input : DataObj) (nd : PNode) (o : DataObj),
      ((stepNode clock input nd o).2.1.count = nd.count + 1 ↔
        (o.mtime < nd.mtime ∨ o.mtime < input.mtime
          ∨ ¬ contains o.buffered o.requested = true)) ∧
      ((stepNode clock input nd o).2.1.count = nd.count →
        stepNode clock input nd o = (clock, nd, o))) ∧
    update (update p R).2 R = (.ok (), (update p R).2) ∧
    (update (update p R).2 R).2.srcNode.count = (update p R).2.srcNode.count ∧
    ((update (update p R).2 R).2.chain.map fun q => q.1.count)
      = ((update p R).2.chain.map fun q => q.1.count) := by
  have hstep : ∀ (clock : Nat) (input : DataObj) (nd : PNode) (o : DataObj),
      ((stepNode clock input nd o).2.1.count = nd.count + 1 ↔
        (o.mtime < nd.mtime ∨ o.mtime < input.mtime
          ∨ ¬ contains o.buffered o.requested = true)) ∧
      ((stepNode clock input nd o).2.1.count = nd.count →
        stepNode clock input nd o = (clock, nd, o)) := by
    intro clock input nd o
    rcases stepNode_cases clock input nd o with ⟨heq, hcond⟩ | ⟨heq, h1, h2, h3⟩
    · rw [heq]
      constructor
      · exact ⟨fun _ => hcond, fun _ => rfl⟩
      · intro hc
        have hx : nd.count + 1 = nd.count := hc
        omega
    · rw [heq]
      constructor
      · constructor
        · intro hc
          have hx : nd.count = nd.count + 1 := hc
          omega
        · intro hcond
          rcases hcond with h | h | h
          · omega
          · omega
          · exact absurd h3 h
      · intro _
        rfl
  have hF := update_facts p R hok hwf
  have hfix : update (update p R).2 R = (.ok (), (update p R).2) := by
    refine update_fixpoint (update p R).2 R ?_ ?_ ?_ ?_ ?_ ?_ ?_ ?_
    · rw [hF.2.2.2.1]
      exact hok
    · rw [hF.2.2.2.2.2.2.2.2.2.2.2.2.1, hF.2.2.2.1]
    · intro q hq
      rw [hF.2.2.2.1]
      exact hF.2.2.2.2.2.2.2.2.2.2.2.2.2.1 q hq
    · exact hF.2.2.2.2.2.2.2.2.2.2.1
    · exact hF.2.2.2.2.2.2.2.2.2.2.2.1
    · exact hF.2.2.2.2.2.2.2.2.2.2.2.2.2.2.1
    · exact hF.2.2.2.2.2.2.2.2.2.2.2.2.2.2.2.1
    · exact hF.2.2.2.2.2.2.2.2.2.2.2.2.2.2.2.2
  refine ⟨hstep, hfix, ?_, ?_⟩
  · rw [hfix]
  · rw [hfix]

/-- C6: an update whose requested extent is not contained in the whole
extent fails with RegionOutOfBoundsError during the request phase, and
the failed update leaves every data object buffered extent, modification
time and buffer contents, every node state, and the clock unchanged. -/
theorem update_out_of_bounds (p : Pipeline) (R : Extent)
    (hbad : contains p.srcWhole R = false) :
    (update p R).1 = .error .regionOutOfBounds ∧
    (update p R).2.clock = p.clock ∧
    (update p R).2.srcNode = p.srcNode ∧
    (update p R).2.srcOut.buffered = p.srcOut.buffered ∧
    (update p R).2.srcOut.mtime = p.srcOut.mtime ∧
    (update p R).2.srcOut.pixels = p.srcOut.pixels ∧
    ((update p R).2.chain.map fun q => (q.1, q.2.buffered, q.2.mtime, q.2.pixels))
      = (p.chain.map fun q => (q.1, q.2.buffered, q.2.mtime, q.2.pixels)) := by
  rw [update_eq_neg p R hbad]
  refine ⟨rfl, rfl, rfl, rfl, rfl, rfl, ?_⟩
  show (updChain0 p R).map _ = _
  rw [updChain0, List.map_map]
  apply List.map_congr_left
  intro q _
  rfl

/-- C9: over every sequence of operations (updates, successful or failed,
and external content changes) the modification counter of every data
object never decreases; and across a single operation it strictly
increases exactly when the owning stage recomputes, i.e. when that stage
computation counter advances. -/
theorem mtime_monotonic (p : Pipeline) (hwf : wfPipe p) :
    (∀ ops : List PipeOp,
      p.srcOut.mtime ≤ (applyOps p ops).srcOut.mtime ∧
      List.Forall₂ (fun old new => old.2.mtime ≤ new.2.mtime)
        p.chain (applyOps p ops).chain) ∧
    (∀ op : PipeOp,
      p.srcOut.mtime ≤ (applyOp p op).srcOut.mtime ∧
      ((p.srcOut.mtime < (applyOp p op).srcOut.mtime) ↔
        (applyOp p op).srcNode.count = p.srcNode.count + 1) ∧
      List.Forall₂
        (fun old new => old.2.mtime ≤ new.2.mtime ∧
          ((old.2.mtime < new.2.mtime) ↔ new.1.count = old.1.count + 1))
        p.chain (applyOp p op).chain) := by
  constructor
  · intro ops
    have h := applyOps_mono ops p hwf
    exact ⟨h.1, h.2.1⟩
  · intro op
    have h := applyOp_facts p op hwf
    exact ⟨h.2.1, h.2.2.1, h.2.2.2⟩

/-- The variable-arity series pattern. Modelled from the spec: pushing a
sequence of same-shaped inputs produces one output with one extra,
slowest-varying axis; each pushed input becomes one index along the new
axis and the whole extent of the new axis has size exactly the number of
pushed inputs. The output is materialized over its whole extent, reading
cross-section z from pushed input number z. -/
def joinSeries (shape : Extent) (inputs : List (Index → Int)) : DataObj :=
  { whole := ((0 : Int), inputs.length) :: shape,
    requested := ((0 : Int), inputs.length) :: shape,
    buffered := ((0 : Int), inputs.length) :: shape,
    mtime := 0,
    pixels := (indicesOf (((0 : Int), inputs.length) :: shape)).map (fun idx =>
      match idx with
      | z :: rest2 => (inputs.getD z.toNat (fun _ => 0)) rest2
      | [] => 0) }

/-- C5: joining n same-shaped inputs yields one output whose new slowest
axis has size exactly n, and for every i < n the cross-section of the
output at index i along the new axis reads back exactly the contents of
the i-th pushed input. -/
theorem joinSeries_correct (shape : Extent) (inputs : List (Index → Int)) :
    (joinSeries shape inputs).whole = ((0 : Int), inputs.length) :: shape ∧
    (∀ (i : Nat), i < inputs.length → ∀ idx2 : Index,
      inAxes shape idx2 = true →
      readAt (joinSeries shape inputs) (((i : Nat) : Int) :: idx2)
        = inputs.getD i (fun _ => 0) idx2) := by
  refine ⟨rfl, ?_⟩
  intro i hi idx2 hidx2
  have hin : inAxes (((0 : Int), inputs.length) :: shape)
      (((i : Nat) : Int) :: idx2) = true := by
    rw [inAxes]
    simp only [Bool.and_eq_true, decide_eq_true_eq]
    refine ⟨⟨?_, ?_⟩, hidx2⟩
    · exact_mod_cast Nat.zero_le i
    · simpa using (by exact_mod_cast hi : ((i : Nat) : Int) < (inputs.length : Int))
  have h := read_map_offset
    (fun idx => match idx with
      | z :: rest2 => (inputs.getD z.toNat (fun _ => 0)) rest2
      | [] => 0) hin
  show ((indicesOf (((0 : Int), inputs.length) :: shape)).map
      (fun idx => match idx with
        | z :: rest2 => (inputs.getD z.toNat (fun _ => 0)) rest2
        | [] => 0)).getD
    (offsetIn (((0 : Int), inputs.length) :: shape) (((i : Nat) : Int) :: idx2)) 0
    = inputs.getD i (fun _ => 0) idx2
  rw [h]
  show inputs.getD ((i : Nat) : Int).toNat (fun _ => 0) idx2
    = inputs.getD i (fun _ => 0) idx2
  rw [Int.toNat_natCast]

/-- A small concrete pipeline used by witnesses: one source over a
two-element one-dimensional whole extent and one pointwise chain node. -/
def samplePipeline : Pipeline :=
  { clock := 0,
    srcFn := fun _ => 1,
    srcWhole := [((0 : Int), 2)],
    srcNode := { fn := fun v => v, mtime := 0, count := 0 },
    srcOut := { whole := [((0 : Int), 2)], requested := [((0 : Int), 2)],
                buffered := [((0 : Int), 0)], mtime := 0, pixels := [] },
    chain := [({ fn := fun v => v + 1, mtime := 0, count := 0 },
               { whole := [((0 : Int), 2)], requested := [((0 : Int), 2)],
                 buffered := [((0 : Int), 0)], mtime := 0, pixels := [] })] }

lemma samplePipeline_wf : wfPipe samplePipeline := by
  refine ⟨Nat.le_refl 0, Nat.le_refl 0, ?_⟩
  intro q hq
  rcases List.mem_singleton.mp hq with rfl
  exact ⟨Nat.le_refl 0, Nat.le_refl 0⟩

lemma samplePipeline_inv : pipeInv samplePipeline :=
  ⟨rfl, rfl, trivial⟩

/-- Witness for C1 at the concrete pipeline with two stream divisions. -/
theorem streaming_equivalence_witness :
    (1 : Nat) ≤ 2 ∧
    contains samplePipeline.srcWhole [((0 : Int), 2)] = true ∧
    wfPipe samplePipeline ∧ pipeInv samplePipeline ∧
    (streamUpdate samplePipeline [((0 : Int), 2)] 2).2
      = readRegion (finalOut (update samplePipeline [((0 : Int), 2)]).2)
          [((0 : Int), 2)] :=
  ⟨by decide, by decide, samplePipeline_wf, samplePipeline_inv,
   streaming_equivalence samplePipeline [((0 : Int), 2)] 2 (by decide)
     (by decide) samplePipeline_wf samplePipeline_inv⟩

/-- Witness for C4 at the concrete pipeline. -/
theorem update_idempotent_witness :
    contains samplePipeline.srcWhole [((0 : Int), 2)] = true ∧
    wfPipe samplePipeline ∧
    (update (update samplePipeline [((0 : Int), 2)]).2 [((0 : Int), 2)]
      = (.ok (), (update samplePipeline [((0 : Int), 2)]).2)) :=
  ⟨by decide, samplePipeline_wf,
   (update_idempotent samplePipeline [((0 : Int), 2)] (by decide)
     samplePipeline_wf).2.1⟩

/-- Witness for C6 at the concrete pipeline with an oversized request. -/
theorem update_out_of_bounds_witness :
    contains samplePipeline.srcWhole [((0 : Int), 3)] = false ∧
    ((update samplePipeline [((0 : Int), 3)]).1 = .error .regionOutOfBounds ∧
     (update samplePipeline [((0 : Int), 3)]).2.clock = samplePipeline.clock ∧
     (update samplePipeline [((0 : Int), 3)]).2.srcNode = samplePipeline.srcNode ∧
     (update samplePipeline [((0 : Int), 3)]).2.srcOut.buffered
       = samplePipeline.srcOut.buffered ∧
     (update samplePipeline [((0 : Int), 3)]).2.srcOut.mtime
       = samplePipeline.srcOut.mtime ∧
     (update samplePipeline [((0 : Int), 3)]).2.srcOut.pixels
       = samplePipeline.srcOut.pixels ∧
     ((update samplePipeline [((0 : Int), 3)]).2.chain.map
        fun q => (q.1, q.2.buffered, q.2.mtime, q.2.pixels))
       = (samplePipeline.chain.map
          fun q => (q.1, q.2.buffered, q.2.mtime, q.2.pixels))) :=
  ⟨by decide, update_out_of_bounds samplePipeline [((0 : Int), 3)] (by decide)⟩

/-- Witness for C9 at the concrete pipeline. -/
theorem mtime_monotonic_witness :
    wfPipe samplePipeline ∧
    ((∀ ops : List PipeOp,
       samplePipeline.srcOut.mtime ≤ (applyOps samplePipeline ops).srcOut.mtime ∧
       List.Forall₂ (fun old new => old.2.mtime ≤ new.2.mtime)
         samplePipeline.chain (applyOps samplePipeline ops).chain) ∧
     (∀ op : PipeOp,
       samplePipeline.srcOut.mtime ≤ (applyOp samplePipeline op).srcOut.mtime ∧
       ((samplePipeline.srcOut.mtime < (applyOp samplePipeline op).srcOut.mtime) ↔
         (applyOp samplePipeline op).srcNode.count
           = samplePipeline.srcNode.count + 1) ∧
       List.Forall₂
         (fun old new => old.2.mtime ≤ new.2.mtime ∧
           ((old.2.mtime < new.2.mtime) ↔ new.1.count = old.1.count + 1))
         samplePipeline.chain (applyOp samplePipeline op).chain)) :=
  ⟨samplePipeline_wf, mtime_monotonic samplePipeline samplePipeline_wf⟩

/-- Witness for C5 with two pushed two-dimensional inputs. -/
theorem joinSeries_correct_witness :
    (1 : Nat) < 2 ∧
    inAxes [((0 : Int), 1), ((0 : Int), 1)] [(0 : Int), (0 : Int)] = true ∧
    readAt
      (joinSeries [((0 : Int), 1), ((0 : Int), 1)]
        [(fun _ => 3 : Index → Int), (fun _ => 7 : Index → Int)])
      (((1 : Nat) : Int) :: [(0 : Int), (0 : Int)])
      = ([(fun _ => 3 : Index → Int), (fun _ => 7 : Index → Int)].getD 1
          (fun _ => 0)) [(0 : Int), (0 : Int)] :=
  ⟨by decide, by decide,
   (joinSeries_correct [((0 : Int), 1), ((0 : Int), 1)]
     [(fun _ => 3 : Index → Int), (fun _ => 7 : Index → Int)]).2 1 (by decide)
     [(0 : Int), (0 : Int)] (by decide)⟩
